import Mathlib

/-!
# grep55: the suffix configuration and the recursive search

A shallow embedding of `grep55.cpp`.  A `std::string` is a list of characters,
each character standing for one `char` of the C++ string.  Streams are explicit
states, `while (!s.eof())` loops are recursions on a fuel argument that return
`none` when the fuel runs out, and the two output streams are lists of lines.
-/

namespace Grep55

/-- A `std::string`: the list of its characters. -/
abbrev Str := List Char

/-! ## `std::string` and `<cctype>` operations used by the program -/

/-- Model of `s.find(pat)`: the lowest index at which `pat` occurs in `s`,
`none` for `std::string::npos`. -/
def find : Str → Str → Option Nat
  | [], pat => if pat.isEmpty then some 0 else none
  | c :: t, pat =>
    if pat.isPrefixOf (c :: t) then some 0 else (find t pat).map (· + 1)

/-- Model of `s.substr(pos)`. -/
def substrFrom (s : Str) (pos : Nat) : Str := s.drop pos

/-- Model of `s.substr(pos, n)`. -/
def substr (s : Str) (pos n : Nat) : Str := (s.drop pos).take n

/-- Model of `s.find_first_not_of(chars)`. -/
def find_first_not_of : Str → Str → Option Nat
  | [], _ => none
  | c :: t, chars =>
    if chars.contains c then (find_first_not_of t chars).map (· + 1) else some 0

/-- The pieces of a string between its separators, the characters that satisfy
`sep`: one more piece than there are separators. -/
def splitWhen (sep : Char → Bool) : Str → List Str
  | [] => [[]]
  | c :: cs =>
    if sep c then [] :: splitWhen sep cs
    else
      match splitWhen sep cs with
      | [] => [[c]]
      | w :: ws => (c :: w) :: ws

/-- Model of `std::tolower` in the "C" locale on one `unsigned char`. -/
def tolower (c : Char) : Char :=
  if 65 ≤ c.toNat ∧ c.toNat ≤ 90 then Char.ofNat (c.toNat + 32) else c

/-- Model of `std::isspace` in the "C" locale: space, `\t`, `\n`, `\v`, `\f`, `\r`. -/
def isspace (c : Char) : Bool :=
  c.toNat = 32 || (9 ≤ c.toNat && c.toNat ≤ 13)

/-! ## Input streams -/

/-- An input stream: the characters not yet extracted and the `eofbit`.
The `failbit` is not kept because the program never tests it. -/
structure IStream where
  buf : Str
  eofbit : Bool
deriving DecidableEq, Repr

/-- Characters extracted by one `std::getline`: the line, the characters left
in the stream, and whether the end of input was hit before a newline. -/
def getlineChars : Str → Str × Str × Bool
  | [] => ([], [], true)
  | c :: rest =>
    if c = '\n' then ([], rest, false)
    else ((c :: (getlineChars rest).1), (getlineChars rest).2.1, (getlineChars rest).2.2)

/-- Model of `std::getline(in, line)` on a fresh `line`: when the stream is
already at eof nothing is extracted and the line stays empty; otherwise
characters are extracted up to and including the next newline (which is
dropped), and `eofbit` is set when the input ends first. -/
def getline (s : IStream) : Str × IStream :=
  if s.eofbit then ([], s)
  else ((getlineChars s.buf).1, ⟨(getlineChars s.buf).2.1, (getlineChars s.buf).2.2⟩)

/-- Model of `ss >> suffix` on a fresh `suffix`: leading whitespace is skipped;
if the input ends there, `eofbit` is set and the string stays empty; otherwise
characters are extracted up to the next whitespace (left in the stream), and
`eofbit` is set when the input ends first. -/
def extractWord (s : IStream) : Str × IStream :=
  if s.eofbit then ([], s)
  else
    match s.buf.dropWhile isspace with
    | [] => ([], ⟨[], true⟩)
    | c :: rest =>
      ((c :: rest).takeWhile (fun x => !isspace x),
        ⟨(c :: rest).dropWhile (fun x => !isspace x),
          ((c :: rest).dropWhile (fun x => !isspace x)).isEmpty⟩)

/-! ## class Settings -/

/-- The class `Settings`: its only data member is `m_suffixes`. -/
structure Settings where
  m_suffixes : List Str
deriving DecidableEq, Repr

/-- The constant `default_settings` of the constructor. -/
def default_settings : List Str :=
  ["[files]".toList, "suffixes=txt log xml html c h cpp cs java bat sh sql".toList]

/-- Model of `Settings::tolowercase`. -/
def tolowercase (str : Str) : Str := str.map tolower

/-- Model of `Settings::ltrim`. -/
def ltrim (str : Str) : Str :=
  match find_first_not_of str [' ', '\t'] with
  | none => str
  | some i => substrFrom str i

/-- The loop `while (!ss.eof())` of `Settings::process`: each round extracts one
word, lowercases it and appends it to `m_suffixes`. -/
def processLoop : Nat → IStream → Settings → Option Settings
  | 0, _, _ => none
  | fuel + 1, ss, m =>
    if ss.eofbit then some m
    else processLoop fuel (extractWord ss).2 ⟨m.m_suffixes ++ [tolowercase (extractWord ss).1]⟩

/-- Model of `Settings::process`. -/
def process (m : Settings) (section_ key value : Str) : Option Settings :=
  if section_ = "files".toList ∧ key = "suffixes".toList then
    processLoop (value.length + 2) ⟨value, false⟩ m
  else some m

/-- Model of `Settings::is_valid_suffix`. -/
def is_valid_suffix (m : Settings) (suffix : Str) : Bool :=
  let suffix2 := tolowercase suffix
  let suffix2 := if find suffix2 ['.'] = some 0 then substrFrom suffix2 1 else suffix2
  decide (suffix2 ∈ m.m_suffixes)

/-- The state of the parsing loop of the constructor: the local variable
`section` and the object under construction. -/
structure ParseState where
  section_ : Str
  settings : Settings
deriving DecidableEq, Repr

/-- One round of the loop `for (const std::string &line : settings_lines)`. -/
def parseLine (st : ParseState) (line : Str) : Option ParseState :=
  let trimmed := ltrim line
  if find trimmed ['['] = some 0 then
    match find trimmed [']'] with
    | some pos => some ⟨substr trimmed 1 (pos - 1), st.settings⟩
    | none => some st
  else
    match find trimmed ['='] with
    | some pos =>
      (process st.settings st.section_ (substr trimmed 0 pos) (substrFrom trimmed (pos + 1))).map
        (fun m => ⟨st.section_, m⟩)
    | none => some st

/-- The loop `for (const std::string &line : settings_lines)`. -/
def parseLines : ParseState → List Str → Option ParseState
  | st, [] => some st
  | st, line :: rest =>
    match parseLine st line with
    | none => none
    | some st1 => parseLines st1 rest

/-- The second half of the constructor: parse the lines from an empty section
and an empty suffix list. -/
def parseSettings (settings_lines : List Str) : Option Settings :=
  (parseLines ⟨[], ⟨[]⟩⟩ settings_lines).map (fun st => st.settings)

/-! ## Reading the settings file -/

/-- What the constructor can observe of the settings file: its content when it
exists, whether it can be opened for reading, and whether it can be opened
(created or truncated) for writing. -/
structure FileState where
  content : Option Str
  readable : Bool
  writable : Bool
deriving DecidableEq, Repr

/-- The environment of the constructor: the two environment variables and the
state of each file by path. -/
structure Env where
  HOME : Option Str
  USERPROFILE : Option Str
  file : Str → FileState

/-- Model of `std::ifstream in(file)`: the stream when the file opens. -/
def ifstreamOpen (f : FileState) : Option IStream :=
  if f.readable then f.content.map (fun c => ⟨c, false⟩) else none

/-- Model of the block that writes the defaults: `std::ofstream out(file)`
truncates the file when it opens, and every default line is written followed by
`std::endl`. -/
def writeDefaults (f : FileState) : FileState :=
  if f.writable then
    ⟨some (default_settings.foldl (fun acc line => acc ++ line ++ ['\n']) []), f.readable, f.writable⟩
  else f

/-- The loop `while (!in.eof())` of the constructor: each round reads one line
and appends it to `settings_lines`. -/
def readLines : Nat → IStream → List Str → Option (List Str)
  | 0, _, _ => none
  | fuel + 1, s, settings_lines =>
    if s.eofbit then some settings_lines
    else readLines fuel (getline s).2 (settings_lines ++ [(getline s).1])

/-! ## `std::filesystem::path` -/

/-- The pieces of a path string between its `/` separators. -/
def splitSlash (p : Str) : List Str := splitWhen (fun c => c = '/') p

/-- Model of `path::filename()`: what follows the last separator. -/
def filename (p : Str) : Str := (splitSlash p).getLastD []

/-- Model of `s.rfind(c)`. -/
def rfind : Str → Char → Option Nat
  | [], _ => none
  | x :: t, c =>
    match rfind t c with
    | some i => some (i + 1)
    | none => if x = c then some 0 else none

/-- Where the extension starts in a filename (C++17): at its rightmost period,
unless the filename is `.` or `..`, has no period, or has its only period
first. -/
def extensionPos (f : Str) : Option Nat :=
  if f = ['.'] ∨ f = ['.', '.'] then none
  else
    match rfind f '.' with
    | some 0 => none
    | r => r

/-- Model of `path::extension().string()`. -/
def extension (p : Str) : Str :=
  match extensionPos (filename p) with
  | some i => substrFrom (filename p) i
  | none => []

/-- Model of `path::stem().string()`. -/
def stem (p : Str) : Str :=
  match extensionPos (filename p) with
  | some i => substr (filename p) 0 i
  | none => filename p

/-- Model of `path::has_root_directory()` on POSIX. -/
def has_root_directory (p : Str) : Bool := p.head? = some '/'

/-- Model of `path::has_filename()`: the path is not empty and does not end
with a separator. -/
def has_filename (p : Str) : Bool := decide (p ≠ []) && decide (p.getLast? ≠ some '/')

/-- Model of `lhs / p` (C++17, POSIX): an absolute `p` replaces `lhs`;
otherwise a separator is added when `lhs` has a filename, then `p`. -/
def pathAppend (lhs p : Str) : Str :=
  if has_root_directory p then p
  else if has_filename lhs then lhs ++ '/' :: p
  else lhs ++ p

/-- The elements of the relative part of a path, as iterated by `path::begin()`
to `path::end()`: the non-empty pieces, followed by one empty element when the
path ends with a separator after a filename. -/
def relElements (p : Str) : List Str :=
  if p.getLast? = some '/' ∧ (splitSlash p).filter (fun e => !e.isEmpty) ≠ [] then
    (splitSlash p).filter (fun e => !e.isEmpty) ++ [[]]
  else (splitSlash p).filter (fun e => !e.isEmpty)

/-- Model of `a.compare(b) < 0` on `std::string`: characters compare as
unsigned values, and a proper beginning of a string is less than the string. -/
def strLt : Str → Str → Bool
  | _, [] => false
  | [], _ :: _ => true
  | a :: as, b :: bs => decide (a < b) || (decide (a = b) && strLt as bs)

/-- Element-wise lexicographic comparison of two element sequences. -/
def elemsLt : List Str → List Str → Bool
  | _, [] => false
  | [], _ :: _ => true
  | a :: as, b :: bs => strLt a b || (decide (a = b) && elemsLt as bs)

/-- Model of `operator<` on `fs::path` (`path::compare`, POSIX, where the root
name is empty): a path without root directory is less than one with it, then
the elements of the relative parts compare lexicographically. -/
def pathLt (p q : Str) : Bool :=
  if has_root_directory p = has_root_directory q then elemsLt (relElements p) (relElements q)
  else !has_root_directory p

/-- Model of `std::sort(filenames.begin(), filenames.end())`: the paths in
non-decreasing order of `operator<`. -/
def sortPaths (filenames : List Str) : List Str :=
  List.insertionSort (fun a b => pathLt b a = false) filenames

/-- The first half of the constructor: where `settings_lines` comes from. -/
def settingsLines (name : Str) (env : Env) : Option (List Str) :=
  match env.HOME.orElse (fun _ => env.USERPROFILE) with
  | some home =>
    let settings_file := pathAppend home (name ++ ".ini".toList)
    match ifstreamOpen (env.file settings_file) with
    | some s => readLines (s.buf.length + 2) s []
    | none =>
      match ifstreamOpen (writeDefaults (env.file settings_file)) with
      | some s => readLines (s.buf.length + 2) s []
      | none => some default_settings
  | none => some default_settings

/-- Model of the constructor `Settings::Settings(name)`. -/
def newSettings (name : Str) (env : Env) : Option Settings :=
  match settingsLines name env with
  | some settings_lines => parseSettings settings_lines
  | none => none

/-! ## class RecursiveSearcher -/

/-- What the search can observe of a path: the answers of `fs::is_directory`
and `fs::is_regular_file`, the filenames that `fs::directory_iterator` yields,
in the order it yields them (none when the directory may not be listed), and
what `std::ifstream in(path)` gives: the content of the file, or a failure
with the text of `strerror(errno)`.  A missing path is neither a directory nor
a regular file and fails to open.  Status queries that throw are outside the
model. -/
structure Entry where
  is_directory : Bool
  is_regular_file : Bool
  names : List Str
  opened : Except Str Str

/-- The file system seen by the search: what lies at each path. -/
abbrev FileSystem := Str → Entry

/-- What a call writes: the lines sent to `std::cout` and to `std::cerr` (each
ended by `std::endl`), and the paths given to `std::ifstream`, in order. -/
structure Output where
  out : List Str
  err : List Str
  opened : List Str
deriving DecidableEq, Repr

/-- No output. -/
def Output.empty : Output := ⟨[], [], []⟩

/-- The output of one call followed by the output of the next. -/
def Output.append (a b : Output) : Output :=
  ⟨a.out ++ b.out, a.err ++ b.err, a.opened ++ b.opened⟩

/-- The characters that reach a stream: every line followed by a newline. -/
def render (lines : List Str) : Str := lines.flatMap (fun l => l ++ ['\n'])

/-- The digits of `operator<<(int)` for a non-negative value, most significant
first, put in front of `acc`. -/
def decimalCore : Nat → Nat → Str → Str
  | 0, _, acc => acc
  | fuel + 1, n, acc =>
    if n < 10 then Char.ofNat (48 + n) :: acc
    else decimalCore fuel (n / 10) (Char.ofNat (48 + n % 10) :: acc)

/-- Model of `std::cout << line_number`.  The counter is a natural number: the
embedding covers files of fewer than `2^31` lines, for which the `int` of the
source does not overflow. -/
def decimal (n : Nat) : Str := decimalCore (n + 1) n []

/-- The line written for a match: `path:line_number: line`. -/
def record (path : Str) (line_number : Nat) (line : Str) : Str :=
  path ++ ':' :: (decimal line_number ++ ':' :: ' ' :: line)

/-- The loop `while (!in.eof())` of `search`: each round reads one line,
increments `line_number`, and writes a record when the line contains the
pattern. -/
def searchLoop (path pattern : Str) : Nat → IStream → Nat → List Str → Option (List Str)
  | 0, _, _, _ => none
  | fuel + 1, s, line_number, out =>
    if s.eofbit then some out
    else if find (getline s).1 pattern ≠ none then
      searchLoop path pattern fuel (getline s).2 (line_number + 1)
        (out ++ [record path (line_number + 1) (getline s).1])
    else searchLoop path pattern fuel (getline s).2 (line_number + 1) out

/-- The body of `search` from `std::ifstream in(path)` on: the loop when the
file opens, one line on `std::cerr` when it does not. -/
def openAndSearch (path pattern : Str) : Except Str Str → Option Output
  | .ok content =>
    (searchLoop path pattern (content.length + 2) ⟨content, false⟩ 0 []).map
      (fun out => ⟨out, [], [path]⟩)
  | .error e => some ⟨[], [e ++ ':' :: ' ' :: path], [path]⟩

/-- Run a call on every path of a list, in order. -/
def forEach (f : Str → Option Output) : List Str → Option Output
  | [] => some Output.empty
  | p :: ps =>
    match f p with
    | none => none
    | some o => (forEach f ps).map (fun os => Output.append o os)

/-- Model of `RecursiveSearcher::search`.  The fuel bounds the depth of the
recursion; `level` is a natural number (the depth of a walk stays far below
the range of `int`). -/
def search (fs : FileSystem) (settings : Settings) (pattern : Str) :
    Nat → Str → Nat → Option Output
  | 0, _, _ => none
  | fuel + 1, path, level =>
    if (fs path).is_directory then
      forEach (fun f => search fs settings pattern fuel f (level + 1))
        (sortPaths ((fs path).names.map (fun n => pathAppend path n)))
    else if level = 0 ∨ (fs path).is_regular_file then
      if level > 0 ∧ is_valid_suffix settings (extension path) = false then some Output.empty
      else openAndSearch path pattern (fs path).opened
    else some Output.empty

/-! ## main -/

/-- The world of one run: the environment of the settings, the file system,
and the current directory. -/
structure World where
  env : Env
  fs : FileSystem
  cwd : Str

/-- The usage line. -/
def usage (argv0 : Str) : Str := "Usage: ".toList ++ argv0 ++ " pattern [filename] ...".toList

/-- Model of `main`: `argv0` is `argv[0]` and `args` the arguments after it, so
`argc < 2` is `args = []`.  The result is the exit status and the output. -/
def main (fuel : Nat) (w : World) (argv0 : Str) (args : List Str) : Option (Int × Output) :=
  match newSettings (stem argv0) w.env with
  | none => none
  | some settings =>
    match args with
    | [] => some (1, ⟨[], [usage argv0], []⟩)
    | pattern :: rest =>
      (forEach (fun f => search w.fs settings pattern fuel f 0)
        (if rest.isEmpty then [w.cwd] else rest)).map (fun o => (0, o))

/-! ## Specification-level notions -/

/-- The lines of a text: the text between newlines, the newlines dropped.
After a final newline comes one last, empty piece. -/
def textLines (content : Str) : List Str := splitWhen (fun c => c = '\n') content

/-- The whitespace-separated tokens of a value. -/
def specTokens (value : Str) : List Str :=
  (splitWhen isspace value).filter (fun t => !t.isEmpty)

/-- The value is empty or ends with whitespace. -/
def endsOpen (value : Str) : Bool :=
  match value.getLast? with
  | none => true
  | some c => isspace c

/-- The words that the extraction loop of `process` reads from a value: its
whitespace-separated tokens, followed by one empty word when the value is
empty or ends with whitespace (the last extraction then fails and leaves the
word empty). -/
def extractedWords (value : Str) : List Str :=
  specTokens value ++ (if endsOpen value then [[]] else [])

/-- The records of the lines that contain the pattern, in order, the first
line of the list being numbered `n + 1`. -/
def matchRecords (path pattern : Str) : Nat → List Str → List Str
  | _, [] => []
  | n, l :: ls =>
    if pattern <:+: l then record path (n + 1) l :: matchRecords path pattern (n + 1) ls
    else matchRecords path pattern (n + 1) ls

/-- What opening and searching one file writes. -/
def fileOutput (path pattern : Str) : Except Str Str → Output
  | .ok content => ⟨matchRecords path pattern 0 (textLines content), [], [path]⟩
  | .error e => ⟨[], [e ++ ':' :: ' ' :: path], [path]⟩

/-- A filename as a directory holds it: not empty and without separator. -/
def validName (n : Str) : Bool := !n.isEmpty && !n.contains '/'

/-- The tree below `path` is at most `depth` levels deep. -/
def walkWithin (fs : FileSystem) : Nat → Str → Bool
  | 0, _ => false
  | depth + 1, path =>
    !(fs path).is_directory ||
      (fs path).names.all (fun n => walkWithin fs depth (pathAppend path n))

/-- The left-trimmed form of a line: its leading spaces and tabs removed. -/
def specLtrim (line : Str) : Str := line.dropWhile (fun c => c = ' ' || c = '\t')

/-- The lines of a file in the usual sense: a final newline ends the last line
and starts no new one, and an empty file has no line. -/
def properLines (content : Str) : List Str :=
  if (textLines content).getLast? = some [] then (textLines content).dropLast
  else textLines content

/-- The components of a path: its non-empty pieces between separators. -/
def pathNames (p : Str) : List Str := (splitSlash p).filter (fun e => !e.isEmpty)

/-! ## Example inputs -/

/-- An example file system: the directory `d` holds `c.TXT`, `b.dat` and
`a.txt`, listed in that order; `locked` exists but may not be read; nothing
else exists. -/
def exampleFs : FileSystem := fun p =>
  if p = "d".toList then ⟨true, false, ["c.TXT".toList, "b.dat".toList, "a.txt".toList], .ok []⟩
  else if p = "d/a.txt".toList then ⟨false, true, [], .ok "hello\nworld\n".toList⟩
  else if p = "d/b.dat".toList then ⟨false, true, [], .ok "hello".toList⟩
  else if p = "d/c.TXT".toList then ⟨false, true, [], .ok "low\nhigh".toList⟩
  else if p = "locked".toList then ⟨false, true, [], .error "Permission denied".toList⟩
  else ⟨false, false, [], .error "No such file or directory".toList⟩

/-- The example file system with the directory `d` listed in another order. -/
def exampleFs2 : FileSystem := fun p =>
  if p = "d".toList then ⟨true, false, ["a.txt".toList, "c.TXT".toList, "b.dat".toList], .ok []⟩
  else exampleFs p

/-- An example file system in which the directory `d` holds the directory `a`
(with the file `x.txt`, which may not be read, and the socket `s.txt`) and the
file `a.txt`. -/
def exampleFs3 : FileSystem := fun p =>
  if p = "d".toList then ⟨true, false, ["a.txt".toList, "a".toList], .ok []⟩
  else if p = "d/a".toList then ⟨true, false, ["x.txt".toList, "s.txt".toList], .ok []⟩
  else if p = "d/a/x.txt".toList then ⟨false, true, [], .error "Permission denied".toList⟩
  else if p = "d/a/s.txt".toList then ⟨false, false, [], .error "No such device".toList⟩
  else if p = "d/a.txt".toList then ⟨false, true, [], .ok "one\ntwo\n".toList⟩
  else ⟨false, false, [], .error "No such file or directory".toList⟩

/-- The same tree in which `d/a/x.txt` can be read. -/
def exampleFs4 : FileSystem := fun p =>
  if p = "d/a/x.txt".toList then ⟨false, true, [], .ok "zero".toList⟩
  else exampleFs3 p

/-- An example environment: a home directory without settings file, in which
the file can be created and read. -/
def exampleEnv : Env := ⟨some "/home/u".toList, none, fun _ => ⟨none, true, true⟩⟩

/-- The suffixes of the default configuration. -/
def defaultSuffixes : List Str :=
  ["txt".toList, "log".toList, "xml".toList, "html".toList, "c".toList, "h".toList,
    "cpp".toList, "cs".toList, "java".toList, "bat".toList, "sh".toList, "sql".toList]

/-- An environment without home directory. -/
def homelessEnv : Env := ⟨none, none, fun _ => ⟨none, true, true⟩⟩

/-- An environment whose settings file can be neither read nor created. -/
def lockedEnv : Env := ⟨none, some "C:/Users/u".toList, fun _ => ⟨none, false, false⟩⟩

/-- An example world: the example environment and file system, run from `d`. -/
def exampleWorld : World := ⟨exampleEnv, exampleFs, "d".toList⟩

/-- The settings with the suffixes `txt` and `log`. -/
def txtLog : Settings := ⟨["txt".toList, "log".toList]⟩

/-! ## Lemmas: strings -/

theorem find_eq_none_iff (s pat : Str) : find s pat = none ↔ ¬ pat <:+: s := by
  induction s with
  | nil =>
    cases pat with
    | nil => simp [find]
    | cons a p => simp [find]
  | cons c t ih =>
    unfold find
    by_cases h : pat.isPrefixOf (c :: t) = true
    · have hp : pat <+: c :: t := List.isPrefixOf_iff_prefix.mp h
      simp only [h, if_true]
      simp [hp.isInfix]
    · have hp : ¬ pat <+: c :: t := fun hp => h ( List.isPrefixOf_iff_prefix.mpr hp)
      simp only [h]
      simp only [Bool.false_eq_true, if_false, Option.map_eq_none', ih, List.infix_cons_iff]
      tauto

theorem find_ne_none_iff (s pat : Str) : find s pat ≠ none ↔ pat <:+: s := by
  rw [Ne, find_eq_none_iff, not_not]

theorem find_char_eq_zero_iff (s : Str) (c : Char) :
    find s [c] = some 0 ↔ s.head? = some c := by
  cases s with
  | nil => simp [find]
  | cons a t =>
    unfold find
    by_cases h : c = a
    · subst h; simp [List.isPrefixOf]
    · have h2 : ¬ a = c := fun e => h e.symm
      simp [List.isPrefixOf, h, h2]

theorem tolower_cases (c : Char) :
    (tolower c = c ∧ ¬ (65 ≤ c.toNat ∧ c.toNat ≤ 90)) ∨
      (65 ≤ c.toNat ∧ c.toNat ≤ 90 ∧ 97 ≤ (tolower c).toNat ∧ (tolower c).toNat ≤ 122) := by
  by_cases h : 65 ≤ c.toNat ∧ c.toNat ≤ 90
  · right
    obtain ⟨h1, h2⟩ := h
    have hc : c = Char.ofNat c.toNat := (Char.ofNat_toNat c).symm
    generalize c.toNat = n at h1 h2 hc
    subst hc
    interval_cases n <;> decide
  · left
    exact ⟨by simp [tolower, h], h⟩

theorem tolower_of_not_upper (c : Char) (h : ¬ (65 ≤ c.toNat ∧ c.toNat ≤ 90)) :
    tolower c = c := by
  simp [tolower, h]

theorem tolower_idem (c : Char) : tolower (tolower c) = tolower c := by
  rcases tolower_cases c with ⟨h, _⟩ | ⟨_, _, h3, _⟩
  · rw [h, h]
  · exact tolower_of_not_upper _ (by omega)

theorem tolower_eq_dot_iff (c : Char) : tolower c = '.' ↔ c = '.' := by
  rcases tolower_cases c with ⟨h, _⟩ | ⟨h1, h2, h3, h4⟩
  · rw [h]
  · constructor
    · intro e
      rw [e] at h3
      exact absurd h3 (by decide)
    · intro e
      rw [e] at h1
      exact absurd h1 (by decide)

theorem tolowercase_idem (s : Str) : tolowercase (tolowercase s) = tolowercase s := by
  simp [tolowercase, tolower_idem]

theorem tolowercase_cons (c : Char) (s : Str) :
    tolowercase (c :: s) = tolower c :: tolowercase s := rfl

theorem tolowercase_head_dot (s : Str) :
    (tolowercase s).head? = some '.' ↔ s.head? = some '.' := by
  cases s with
  | nil => simp [tolowercase]
  | cons c t => simp [tolowercase, tolower_eq_dot_iff]

/-! ## Lemmas: the decimal line number and the record -/

theorem digit_char (d : Nat) (h : d < 10) :
    (Char.ofNat (48 + d)).toNat - 48 = d ∧ Char.ofNat (48 + d) ≠ ':' := by
  interval_cases d <;> decide

theorem decimalCore_spec (fuel : Nat) : ∀ (n : Nat) (acc : Str), n < fuel →
    ∃ ds : Str, decimalCore fuel n acc = ds ++ acc ∧
      ds.foldl (fun a c => 10 * a + (c.toNat - 48)) 0 = n ∧ ∀ c ∈ ds, c ≠ ':' := by
  induction fuel with
  | zero => intro n acc h; omega
  | succ fuel ih =>
    intro n acc h
    unfold decimalCore
    by_cases hn : n < 10
    · refine ⟨[Char.ofNat (48 + n)], by simp [hn], ?_, ?_⟩
      · simp [(digit_char n hn).1]
      · intro c hc
        rw [List.mem_singleton] at hc
        rw [hc]
        exact (digit_char n hn).2
    · have hlt : n / 10 < fuel := by omega
      obtain ⟨ds, h1, h2, h3⟩ := ih (n / 10) (Char.ofNat (48 + n % 10) :: acc) hlt
      have hd := digit_char (n % 10) (Nat.mod_lt _ (by decide))
      refine ⟨ds ++ [Char.ofNat (48 + n % 10)], by simp [hn, h1], ?_, ?_⟩
      · rw [List.foldl_append, h2]
        simp only [List.foldl_cons, List.foldl_nil, hd.1]
        omega
      · intro c hc
        rw [List.mem_append, List.mem_singleton] at hc
        rcases hc with hc | hc
        · exact h3 c hc
        · rw [hc]; exact hd.2

theorem decimal_spec (n : Nat) :
    (decimal n).foldl (fun a c => 10 * a + (c.toNat - 48)) 0 = n ∧ ∀ c ∈ decimal n, c ≠ ':' := by
  obtain ⟨ds, h1, h2, h3⟩ := decimalCore_spec (n + 1) n [] (Nat.lt_succ_self n)
  rw [List.append_nil] at h1
  unfold decimal
  rw [h1]
  exact ⟨h2, h3⟩

theorem decimal_injective (i j : Nat) (h : decimal i = decimal j) : i = j := by
  have hi := (decimal_spec i).1
  rw [h, (decimal_spec j).1] at hi
  exact hi.symm

theorem append_sep_inj (c : Char) : ∀ (xs ys r1 r2 : Str), (∀ x ∈ xs, x ≠ c) → (∀ y ∈ ys, y ≠ c) →
    xs ++ c :: r1 = ys ++ c :: r2 → xs = ys := by
  intro xs
  induction xs with
  | nil =>
    intro ys r1 r2 _ hy h
    cases ys with
    | nil => rfl
    | cons y ys =>
      simp only [List.nil_append, List.cons_append, List.cons.injEq] at h
      exact absurd h.1.symm (hy y (List.mem_cons_self _ _))
  | cons x xs ih =>
    intro ys r1 r2 hx hy h
    cases ys with
    | nil =>
      simp only [List.nil_append, List.cons_append, List.cons.injEq] at h
      exact absurd h.1 (hx x (List.mem_cons_self _ _))
    | cons y ys =>
      simp only [List.cons_append, List.cons.injEq] at h
      rw [h.1, ih ys r1 r2 (fun a ha => hx a (List.mem_cons_of_mem _ ha))
        (fun a ha => hy a (List.mem_cons_of_mem _ ha)) h.2]

theorem record_index_inj (path : Str) (i j : Nat) (l1 l2 : Str)
    (h : record path i l1 = record path j l2) : i = j := by
  unfold record at h
  have h1 := List.append_cancel_left h
  simp only [List.cons.injEq, true_and] at h1
  exact decimal_injective i j
    (append_sep_inj ':' _ _ _ _ (decimal_spec i).2 (decimal_spec j).2 h1)

theorem count_eq_one_of_nodup : ∀ (l : List Str) (x : Str), l.Nodup → x ∈ l → l.count x = 1 := by
  intro l
  induction l with
  | nil => intro x _ h; simp at h
  | cons a t ih =>
    intro x hn hm
    rw [List.nodup_cons] at hn
    rw [List.count_cons]
    by_cases hax : a = x
    · subst hax
      rw [List.count_eq_zero_of_not_mem hn.1]
      simp
    · rw [List.mem_cons] at hm
      rcases hm with hm | hm
      · exact absurd hm.symm hax
      · rw [ih x hn.2 hm]
        simp [hax]

/-! ## Lemmas: reading lines -/

theorem getlineChars_textLines (buf : Str) :
    textLines buf =
      if (getlineChars buf).2.2 then [(getlineChars buf).1]
      else (getlineChars buf).1 :: textLines (getlineChars buf).2.1 := by
  induction buf with
  | nil => simp [textLines, splitWhen, getlineChars]
  | cons c rest ih =>
    by_cases hc : c = '\n'
    · simp [textLines, splitWhen, getlineChars, hc]
    · have e : textLines (c :: rest) =
          match textLines rest with
          | [] => [[c]]
          | w :: ws => (c :: w) :: ws := by
        simp [textLines, splitWhen, hc]
      rw [e, ih]
      by_cases he : (getlineChars rest).2.2 = true
      · simp [getlineChars, hc, he]
      · simp [getlineChars, hc, he]

theorem getlineChars_length (buf : Str) :
    (getlineChars buf).2.1.length ≤ buf.length ∧
      ((getlineChars buf).2.2 = false → (getlineChars buf).2.1.length < buf.length) := by
  induction buf with
  | nil => simp [getlineChars]
  | cons c rest ih =>
    by_cases hc : c = '\n'
    · simp [getlineChars, hc]
    · simp only [getlineChars, hc, if_false, List.length_cons]
      exact ⟨by omega, fun h => by have := ih.2 h; omega⟩

theorem matchRecords_mem (path pattern : Str) : ∀ (ls : List Str) (n k : Nat) (l : Str),
    ls[k]? = some l → pattern <:+: l →
      record path (n + k + 1) l ∈ matchRecords path pattern n ls := by
  intro ls
  induction ls with
  | nil => intro n k l h; simp at h
  | cons a ls ih =>
    intro n k l h hp
    cases k with
    | zero =>
      simp only [List.getElem?_cons_zero, Option.some.injEq] at h
      subst h
      simp [matchRecords, hp]
    | succ k =>
      simp only [List.getElem?_cons_succ] at h
      have := ih (n + 1) k l h hp
      have e : n + 1 + k + 1 = n + (k + 1) + 1 := by omega
      rw [e] at this
      unfold matchRecords
      split
      · exact List.mem_cons_of_mem _ this
      · exact this

theorem matchRecords_index (path pattern : Str) : ∀ (ls : List Str) (n : Nat) (x : Str),
    x ∈ matchRecords path pattern n ls →
      ∃ k l, ls[k]? = some l ∧ pattern <:+: l ∧ x = record path (n + k + 1) l := by
  intro ls
  induction ls with
  | nil => intro n x h; simp [matchRecords] at h
  | cons a ls ih =>
    intro n x h
    unfold matchRecords at h
    split at h
    · rename_i hp
      rw [List.mem_cons] at h
      rcases h with h | h
      · exact ⟨0, a, by simp, hp, h⟩
      · obtain ⟨k, l, h1, h2, h3⟩ := ih (n + 1) x h
        exact ⟨k + 1, l, by simpa using h1, h2, by rw [h3]; congr 1; omega⟩
    · obtain ⟨k, l, h1, h2, h3⟩ := ih (n + 1) x h
      exact ⟨k + 1, l, by simpa using h1, h2, by rw [h3]; congr 1; omega⟩

theorem matchRecords_nodup (path pattern : Str) : ∀ (ls : List Str) (n : Nat),
    (matchRecords path pattern n ls).Nodup := by
  intro ls
  induction ls with
  | nil => intro n; simp [matchRecords]
  | cons a ls ih =>
    intro n
    unfold matchRecords
    split
    · rw [List.nodup_cons]
      refine ⟨?_, ih (n + 1)⟩
      intro hmem
      obtain ⟨k, l, _, _, h3⟩ := matchRecords_index path pattern ls (n + 1) _ hmem
      have := record_index_inj path _ _ _ _ h3
      omega
    · exact ih (n + 1)

theorem searchLoop_spec (path pattern : Str) (fuel : Nat) : ∀ (buf : Str) (n : Nat) (out : List Str),
    buf.length + 2 ≤ fuel →
      searchLoop path pattern fuel ⟨buf, false⟩ n out =
        some (out ++ matchRecords path pattern n (textLines buf)) := by
  induction fuel with
  | zero => intro buf n out h; omega
  | succ fuel ih =>
    intro buf n out h
    have hlen := getlineChars_length buf
    have hfind : ∀ l : Str, (find l pattern ≠ none) = (pattern <:+: l) :=
      fun l => propext (find_ne_none_iff l pattern)
    rw [getlineChars_textLines buf]
    unfold searchLoop
    simp only [Bool.false_eq_true, if_false, getline, hfind]
    by_cases he : (getlineChars buf).2.2 = true
    · obtain ⟨f, rfl⟩ : ∃ f, fuel = f + 1 := ⟨fuel - 1, by omega⟩
      simp only [he, if_true]
      unfold searchLoop
      simp only [if_true, matchRecords]
      split <;> simp
    · have he2 : (getlineChars buf).2.2 = false := by simpa using he
      have hf : (getlineChars buf).2.1.length + 2 ≤ fuel := by have := hlen.2 he2; omega
      simp only [he2, Bool.false_eq_true, if_false]
      rw [matchRecords]
      split
      · rw [ih _ _ _ hf]; simp
      · rw [ih _ _ _ hf]

theorem openAndSearch_eq (path pattern : Str) (r : Except Str Str) :
    openAndSearch path pattern r = some (fileOutput path pattern r) := by
  cases r with
  | error e => rfl
  | ok content =>
    simp [openAndSearch, fileOutput, searchLoop_spec path pattern _ content 0 [] (le_refl _)]

/-! ## Lemmas: paths and their order -/

theorem splitWhen_ne_nil (sep : Char → Bool) (s : Str) : splitWhen sep s ≠ [] := by
  cases s with
  | nil => simp [splitWhen]
  | cons c cs =>
    unfold splitWhen
    split
    · simp
    · split <;> simp

theorem splitWhen_cons_not (sep : Char → Bool) (x : Char) (cs w : Str) (ws : List Str)
    (hx : sep x = false) (hs : splitWhen sep cs = w :: ws) :
    splitWhen sep (x :: cs) = (x :: w) :: ws := by
  simp [splitWhen, hx, hs]

theorem splitWhen_append_sep (sep : Char → Bool) (c : Char) (hc : sep c = true) (ys : Str) :
    ∀ xs : Str, splitWhen sep (xs ++ c :: ys) = splitWhen sep xs ++ splitWhen sep ys := by
  intro xs
  induction xs with
  | nil => simp [splitWhen, hc]
  | cons x xs ih =>
    by_cases hx : sep x = true
    · simp [splitWhen, hx, ih]
    · have hne := splitWhen_ne_nil sep xs
      cases hs : splitWhen sep xs with
      | nil => exact absurd hs hne
      | cons w ws =>
        have hx2 : sep x = false := by simpa using hx
        have e : splitWhen sep (xs ++ c :: ys) = w :: (ws ++ splitWhen sep ys) := by
          rw [ih, hs]; rfl
        rw [List.cons_append, splitWhen_cons_not sep x _ _ _ hx2 e,
          splitWhen_cons_not sep x _ _ _ hx2 hs]
        rfl

theorem splitWhen_no_sep (sep : Char → Bool) : ∀ s : Str, (∀ c ∈ s, sep c = false) →
    splitWhen sep s = [s] := by
  intro s
  induction s with
  | nil => intro _; rfl
  | cons x xs ih =>
    intro h
    have hx : sep x = false := h x (List.mem_cons_self _ _)
    have := ih (fun c hc => h c (List.mem_cons_of_mem _ hc))
    simp [splitWhen, hx, this]

theorem validName_iff (n : Str) : validName n = true ↔ n ≠ [] ∧ '/' ∉ n := by
  cases n with
  | nil => simp [validName]
  | cons a t => simp [validName]

theorem validName_no_sep (n : Str) (hn : validName n = true) :
    ∀ c ∈ n, (fun c : Char => decide (c = '/')) c = false := by
  intro c hc
  have := ((validName_iff n).mp hn).2
  simp only [decide_eq_false_iff_not]
  intro e
  exact this (e ▸ hc)

theorem validName_getLast (n : Str) (hn : validName n = true) (x : Str) :
    (x ++ '/' :: n).getLast? ≠ some '/' := by
  obtain ⟨hne, hmem⟩ := (validName_iff n).mp hn
  cases n with
  | nil => exact absurd rfl hne
  | cons a t =>
    rw [List.getLast?_append, List.getLast?_cons_cons]
    cases hl : (a :: t).getLast? with
    | none => simp at hl
    | some c =>
      simp only [Option.or_some]
      intro e
      rw [Option.some.injEq] at e
      exact hmem (e ▸ List.mem_of_getLast?_eq_some hl)

theorem validName_no_root (n : Str) (hn : validName n = true) : has_root_directory n = false := by
  obtain ⟨hne, hmem⟩ := (validName_iff n).mp hn
  cases n with
  | nil => rfl
  | cons a t =>
    have : a ≠ '/' := fun e => hmem (e ▸ List.mem_cons_self _ _)
    simp [has_root_directory, this]

theorem pathAppend_form (d : Str) :
    (∀ n, validName n = true → pathAppend d n = n) ∨
      ∃ x : Str, ∀ n, validName n = true → pathAppend d n = x ++ '/' :: n := by
  by_cases hf : has_filename d = true
  · right
    exact ⟨d, fun n hn => by simp [pathAppend, validName_no_root n hn, hf]⟩
  · by_cases hd : d = []
    · left
      intro n hn
      subst hd
      simp [pathAppend, validName_no_root n hn, has_filename]
    · right
      have hl : d.getLast? = some '/' := by
        simp only [has_filename, Bool.and_eq_true, decide_eq_true_eq, not_and, not_not] at hf
        exact hf hd
      obtain ⟨x, hx⟩ := List.getLast?_eq_some_iff.mp hl
      refine ⟨x, fun n hn => ?_⟩
      simp only [pathAppend, validName_no_root n hn, hf, Bool.false_eq_true, if_false]
      rw [hx]
      simp

theorem filename_child (x n : Str) (hn : validName n = true) : filename (x ++ '/' :: n) = n := by
  unfold filename splitSlash
  rw [splitWhen_append_sep _ '/' (by simp), splitWhen_no_sep _ n (validName_no_sep n hn)]
  simp

theorem filename_name (n : Str) (hn : validName n = true) : filename n = n := by
  unfold filename splitSlash
  rw [splitWhen_no_sep _ n (validName_no_sep n hn)]
  simp

theorem filename_pathAppend (d n : Str) (hn : validName n = true) :
    filename (pathAppend d n) = n := by
  rcases pathAppend_form d with h | ⟨x, h⟩
  · rw [h n hn]; exact filename_name n hn
  · rw [h n hn]; exact filename_child x n hn

theorem extension_pathAppend (d n : Str) (hn : validName n = true) :
    extension (pathAppend d n) = extension n := by
  unfold extension
  rw [filename_pathAppend d n hn, filename_name n hn]

theorem relElements_child (x n : Str) (hn : validName n = true) :
    relElements (x ++ '/' :: n) = (splitSlash x).filter (fun e => !e.isEmpty) ++ [n] := by
  have hne := ((validName_iff n).mp hn).1
  unfold relElements
  rw [if_neg (fun h => validName_getLast n hn x h.1)]
  unfold splitSlash
  rw [splitWhen_append_sep _ '/' (by simp), splitWhen_no_sep _ n (validName_no_sep n hn)]
  simp [hne]

theorem relElements_name (n : Str) (hn : validName n = true) : relElements n = [n] := by
  have hne := ((validName_iff n).mp hn).1
  have hl : ¬ n.getLast? = some '/' := fun h =>
    ((validName_iff n).mp hn).2 (List.mem_of_getLast?_eq_some h)
  unfold relElements
  rw [if_neg (fun h => hl h.1)]
  unfold splitSlash
  rw [splitWhen_no_sep _ n (validName_no_sep n hn)]
  simp [hne]

theorem strLt_iff_lex : ∀ a b : Str, strLt a b = true ↔ List.Lex (· < ·) a b := by
  intro a
  induction a with
  | nil =>
    intro b
    cases b with
    | nil => simp [strLt, List.Lex.not_nil_right]
    | cons y bs => simp [strLt, List.Lex.nil]
  | cons x as ih =>
    intro b
    cases b with
    | nil => simp [strLt, List.Lex.not_nil_right]
    | cons y bs =>
      simp only [strLt, Bool.or_eq_true, Bool.and_eq_true, decide_eq_true_eq, ih]
      constructor
      · rintro (h | ⟨rfl, h⟩)
        · exact List.Lex.rel h
        · exact List.Lex.cons h
      · intro h
        cases h with
        | rel h => exact Or.inl h
        | cons h => exact Or.inr ⟨rfl, h⟩

theorem strLt_irrefl (a : Str) : strLt a a = false := by
  rw [Bool.eq_false_iff, Ne, strLt_iff_lex]
  exact irrefl_of (List.Lex (· < ·)) a

theorem strLe_total (a b : Str) : strLt b a = false ∨ strLt a b = false := by
  simp only [Bool.eq_false_iff, Ne, strLt_iff_lex]
  by_cases h : List.Lex (· < ·) b a
  · exact Or.inr (asymm_of (List.Lex (· < ·)) h)
  · exact Or.inl h

theorem strLe_antisymm (a b : Str) (h1 : strLt b a = false) (h2 : strLt a b = false) : a = b := by
  simp only [Bool.eq_false_iff, Ne, strLt_iff_lex] at h1 h2
  haveI : IsStrictTotalOrder (List Char) (List.Lex (· < ·)) := inferInstance
  rcases trichotomous_of (List.Lex (· < ·)) a b with h | h | h
  · exact absurd h h2
  · exact h
  · exact absurd h h1

theorem strLe_trans (a b c : Str) (h1 : strLt b a = false) (h2 : strLt c b = false) :
    strLt c a = false := by
  simp only [Bool.eq_false_iff, Ne, strLt_iff_lex] at h1 h2 ⊢
  intro h
  haveI : IsStrictTotalOrder (List Char) (List.Lex (· < ·)) := inferInstance
  rcases trichotomous_of (List.Lex (· < ·)) b a with hb | hb | hb
  · exact h1 hb
  · exact h2 (hb ▸ h)
  · exact h2 (trans_of (List.Lex (· < ·)) h hb)

theorem elemsLt_common (pre : List Str) (a b : Str) :
    elemsLt (pre ++ [a]) (pre ++ [b]) = strLt a b := by
  induction pre with
  | nil => simp [elemsLt]
  | cons p pre ih => simp [elemsLt, strLt_irrefl, ih]

theorem pathLt_siblings (d a b : Str) (ha : validName a = true) (hb : validName b = true) :
    pathLt (pathAppend d a) (pathAppend d b) = strLt a b := by
  rcases pathAppend_form d with h | ⟨x, h⟩
  · rw [h a ha, h b hb]
    unfold pathLt
    rw [validName_no_root a ha, validName_no_root b hb, relElements_name a ha,
      relElements_name b hb]
    simpa using elemsLt_common [] a b
  · rw [h a ha, h b hb]
    unfold pathLt
    have hr : has_root_directory (x ++ '/' :: a) = has_root_directory (x ++ '/' :: b) := by
      cases x <;> simp [has_root_directory]
    rw [if_pos hr, relElements_child x a ha, relElements_child x b hb]
    exact elemsLt_common _ a b

theorem sortNames_perm (l1 l2 : List Str) (h : l1.Perm l2) :
    List.insertionSort (fun a b => strLt b a = false) l1 =
      List.insertionSort (fun a b => strLt b a = false) l2 := by
  haveI : IsTotal Str (fun a b => strLt b a = false) := ⟨fun a b => strLe_total a b⟩
  haveI : IsTrans Str (fun a b => strLt b a = false) := ⟨fun a b c => strLe_trans a b c⟩
  haveI : IsAntisymm Str (fun a b => strLt b a = false) := ⟨fun a b => strLe_antisymm a b⟩
  exact List.eq_of_perm_of_sorted
    (((List.perm_insertionSort _ l1).trans h).trans (List.perm_insertionSort _ l2).symm)
    (List.sorted_insertionSort _ l1) (List.sorted_insertionSort _ l2)

theorem sortPaths_children (d : Str) (names : List Str)
    (hv : ∀ n ∈ names, validName n = true) :
    sortPaths (names.map (fun n => pathAppend d n)) =
      (List.insertionSort (fun a b => strLt b a = false) names).map (fun n => pathAppend d n) := by
  unfold sortPaths
  refine (List.map_insertionSort (fun a b => strLt b a = false)
    (fun a b => pathLt b a = false) (fun n => pathAppend d n) names ?_).symm
  intro a ha b hb
  show strLt b a = false ↔ pathLt (pathAppend d b) (pathAppend d a) = false
  rw [pathLt_siblings d b a (hv b hb) (hv a ha)]

theorem sortPaths_perm (d : Str) (names names2 : List Str) (hp : names.Perm names2)
    (hv : ∀ n ∈ names, validName n = true) :
    sortPaths (names.map (fun n => pathAppend d n)) =
      sortPaths (names2.map (fun n => pathAppend d n)) := by
  rw [sortPaths_children d names hv,
    sortPaths_children d names2 (fun n hn => hv n (hp.mem_iff.mpr hn)),
    sortNames_perm names names2 hp]

/-! ## Lemmas: the settings -/

theorem dropWhile_head_false (p : Char → Bool) : ∀ (l : Str) (c : Char) (rest : Str),
    l.dropWhile p = c :: rest → p c = false := by
  intro l
  induction l with
  | nil => intro c rest h; simp at h
  | cons x xs ih =>
    intro c rest h
    by_cases hx : p x = true
    · rw [List.dropWhile_cons_of_pos hx] at h
      exact ih c rest h
    · rw [List.dropWhile_cons_of_neg hx] at h
      simp only [List.cons.injEq] at h
      rw [← h.1]
      simpa using hx

theorem specTokens_cons_space (x : Char) (buf : Str) (hx : isspace x = true) :
    specTokens (x :: buf) = specTokens buf := by
  simp [specTokens, splitWhen, hx]

theorem specTokens_dropWhile (buf : Str) :
    specTokens (buf.dropWhile isspace) = specTokens buf := by
  induction buf with
  | nil => rfl
  | cons x xs ih =>
    by_cases hx : isspace x = true
    · rw [List.dropWhile_cons_of_pos hx, ih, specTokens_cons_space x xs hx]
    · rw [List.dropWhile_cons_of_neg hx]

theorem specTokens_word (w : Str) (hw : w ≠ []) (hns : ∀ c ∈ w, isspace c = false) :
    specTokens w = [w] := by
  unfold specTokens
  rw [splitWhen_no_sep isspace w hns]
  simp [hw]

theorem specTokens_word_append (w : Str) (hw : w ≠ []) (hns : ∀ c ∈ w, isspace c = false)
    (x : Char) (hx : isspace x = true) (r : Str) :
    specTokens (w ++ x :: r) = w :: specTokens (x :: r) := by
  rw [specTokens_cons_space x r hx]
  unfold specTokens
  rw [splitWhen_append_sep isspace x hx, splitWhen_no_sep isspace w hns]
  simp [hw]

theorem endsOpen_append (a b : Str) (hb : b ≠ []) : endsOpen (a ++ b) = endsOpen b := by
  unfold endsOpen
  rw [List.getLast?_append_of_ne_nil a hb]

theorem endsOpen_word (w : Str) (hw : w ≠ []) (hns : ∀ c ∈ w, isspace c = false) :
    endsOpen w = false := by
  unfold endsOpen
  cases h : w.getLast? with
  | none => simp at h; exact absurd h hw
  | some c => exact hns c (List.mem_of_getLast?_eq_some h)

theorem endsOpen_spaces (buf : Str) (h : buf.dropWhile isspace = []) : endsOpen buf = true := by
  unfold endsOpen
  cases hl : buf.getLast? with
  | none => rfl
  | some c =>
    rw [List.dropWhile_eq_nil_iff] at h
    exact h c (List.mem_of_getLast?_eq_some hl)

theorem extractWord_cases (buf : Str) :
    (∃ w, extractWord ⟨buf, false⟩ = (w, ⟨[], true⟩) ∧ extractedWords buf = [w]) ∨
      (∃ w r, extractWord ⟨buf, false⟩ = (w, ⟨r, false⟩) ∧ r.length < buf.length ∧
        extractedWords buf = w :: extractedWords r) := by
  have hsplit := List.takeWhile_append_dropWhile isspace buf
  cases hd : buf.dropWhile isspace with
  | nil =>
    left
    refine ⟨[], by simp [extractWord, hd], ?_⟩
    unfold extractedWords
    rw [endsOpen_spaces buf hd, ← specTokens_dropWhile buf, hd]
    rfl
  | cons c rest =>
    have hc : isspace c = false := dropWhile_head_false isspace buf c rest hd
    have hne : c :: rest ≠ [] := List.cons_ne_nil _ _
    have hbuf : extractedWords buf = extractedWords (c :: rest) := by
      unfold extractedWords
      rw [← specTokens_dropWhile buf, hd, ← hsplit, hd, endsOpen_append _ _ hne]
    have hlen : (c :: rest).length ≤ buf.length := by
      rw [← hd]; exact (List.dropWhile_sublist isspace).length_le
    have htake : (c :: rest).takeWhile (fun x => !isspace x) =
        c :: rest.takeWhile (fun x => !isspace x) := by
      rw [List.takeWhile_cons_of_pos (by simp [hc])]
    have hdrop : (c :: rest).dropWhile (fun x => !isspace x) =
        rest.dropWhile (fun x => !isspace x) := by
      rw [List.dropWhile_cons_of_pos (by simp [hc])]
    have hw : ∀ x ∈ c :: rest.takeWhile (fun x => !isspace x), isspace x = false := by
      intro x hx
      rw [List.mem_cons] at hx
      rcases hx with hx | hx
      · rw [hx]; exact hc
      · simpa using List.mem_takeWhile_imp hx
    have hwr := List.takeWhile_append_dropWhile (fun x => !isspace x) rest
    cases hr : rest.dropWhile (fun x => !isspace x) with
    | nil =>
      left
      refine ⟨c :: rest.takeWhile (fun x => !isspace x), ?_, ?_⟩
      · simp only [extractWord, Bool.false_eq_true, if_false, hd]
        rw [htake, hdrop, hr]
        rfl
      · rw [hbuf]
        rw [hr, List.append_nil] at hwr
        rw [hwr] at hw
        unfold extractedWords
        rw [specTokens_word _ hne hw, endsOpen_word _ hne hw]
        rw [hwr]
        rfl
    | cons x r =>
      right
      have hx : isspace x = true := by
        simpa using dropWhile_head_false (fun x => !isspace x) rest x r hr
      refine ⟨c :: rest.takeWhile (fun x => !isspace x), x :: r, ?_, ?_, ?_⟩
      · simp only [extractWord, Bool.false_eq_true, if_false, hd]
        rw [htake, hdrop, hr]
        rfl
      · have := (@List.dropWhile_sublist Char rest (fun x => !isspace x)).length_le
        rw [hr] at this
        simp only [List.length_cons] at this hlen ⊢
        omega
      · rw [hbuf]
        have e : c :: rest = (c :: rest.takeWhile (fun x => !isspace x)) ++ x :: r := by
          rw [List.cons_append, ← hr, hwr]
        unfold extractedWords
        rw [e, specTokens_word_append _ (List.cons_ne_nil _ _) hw x hx r,
          endsOpen_append _ _ (List.cons_ne_nil x r)]
        rfl

theorem processLoop_spec (fuel : Nat) : ∀ (buf : Str) (m : Settings), buf.length + 2 ≤ fuel →
    processLoop fuel ⟨buf, false⟩ m =
      some ⟨m.m_suffixes ++ (extractedWords buf).map tolowercase⟩ := by
  induction fuel with
  | zero => intro buf m h; omega
  | succ fuel ih =>
    intro buf m h
    unfold processLoop
    simp only [Bool.false_eq_true, if_false]
    rcases extractWord_cases buf with ⟨w, h1, h2⟩ | ⟨w, r, h1, h2, h3⟩
    · obtain ⟨f, rfl⟩ : ∃ f, fuel = f + 1 := ⟨fuel - 1, by omega⟩
      rw [h1, h2]
      unfold processLoop
      simp
    · rw [h1, h3, ih r _ (by omega)]
      simp

theorem process_spec (m : Settings) (section_ key value : Str) :
    process m section_ key value =
      some (if section_ = "files".toList ∧ key = "suffixes".toList then
        ⟨m.m_suffixes ++ (extractedWords value).map tolowercase⟩ else m) := by
  unfold process
  split
  · exact processLoop_spec _ value m (le_refl _)
  · rfl

theorem parseLine_total (st : ParseState) (line : Str) :
    ∃ st2, parseLine st line = some st2 ∧
      ∃ more, st2.settings.m_suffixes = st.settings.m_suffixes ++ more := by
  unfold parseLine
  simp only
  split
  · split
    · exact ⟨_, rfl, [], by simp⟩
    · exact ⟨_, rfl, [], by simp⟩
  · split
    · rw [process_spec]
      split
      · exact ⟨_, rfl, _, rfl⟩
      · exact ⟨_, rfl, [], by simp⟩
    · exact ⟨_, rfl, [], by simp⟩

theorem parseLines_total : ∀ (lines : List Str) (st : ParseState),
    ∃ st2, parseLines st lines = some st2 ∧
      ∃ more, st2.settings.m_suffixes = st.settings.m_suffixes ++ more := by
  intro lines
  induction lines with
  | nil => intro st; exact ⟨st, rfl, [], by simp⟩
  | cons line rest ih =>
    intro st
    obtain ⟨st1, h1, more1, e1⟩ := parseLine_total st line
    obtain ⟨st2, h2, more2, e2⟩ := ih st1
    refine ⟨st2, by simp [parseLines, h1, h2], more1 ++ more2, ?_⟩
    rw [e2, e1, List.append_assoc]

theorem parseLines_append : ∀ (l1 l2 : List Str) (st st1 : ParseState),
    parseLines st l1 = some st1 → parseLines st (l1 ++ l2) = parseLines st1 l2 := by
  intro l1
  induction l1 with
  | nil =>
    intro l2 st st1 h
    simp only [parseLines, Option.some.injEq] at h
    rw [List.nil_append, h]
  | cons line rest ih =>
    intro l2 st st1 h
    obtain ⟨sta, ha, _⟩ := parseLine_total st line
    simp only [parseLines, ha, List.cons_append] at h ⊢
    exact ih l2 sta st1 h

theorem parseSettings_total (lines : List Str) : ∃ m, parseSettings lines = some m := by
  obtain ⟨st, h, _⟩ := parseLines_total lines ⟨[], ⟨[]⟩⟩
  exact ⟨st.settings, by simp [parseSettings, h]⟩

theorem readLines_spec (fuel : Nat) : ∀ (buf : Str) (acc : List Str), buf.length + 2 ≤ fuel →
    readLines fuel ⟨buf, false⟩ acc = some (acc ++ textLines buf) := by
  induction fuel with
  | zero => intro buf acc h; omega
  | succ fuel ih =>
    intro buf acc h
    have hlen := getlineChars_length buf
    rw [getlineChars_textLines buf]
    unfold readLines
    simp only [Bool.false_eq_true, if_false, getline]
    by_cases he : (getlineChars buf).2.2 = true
    · obtain ⟨f, rfl⟩ : ∃ f, fuel = f + 1 := ⟨fuel - 1, by omega⟩
      simp only [he, if_true]
      unfold readLines
      simp
    · have he2 : (getlineChars buf).2.2 = false := by simpa using he
      have hf : (getlineChars buf).2.1.length + 2 ≤ fuel := by have := hlen.2 he2; omega
      simp only [he2, Bool.false_eq_true, if_false]
      rw [ih _ _ hf]
      simp

theorem settingsLines_total (name : Str) (env : Env) :
    ∃ lines, settingsLines name env = some lines := by
  unfold settingsLines
  split
  · simp only
    split
    · rename_i s _
      cases s with
      | mk buf eofbit =>
        cases eofbit with
        | false => exact ⟨_, readLines_spec _ buf [] (le_refl _)⟩
        | true => exact ⟨[], by simp [readLines]⟩
    · split
      · rename_i s _
        cases s with
        | mk buf eofbit =>
          cases eofbit with
          | false => exact ⟨_, readLines_spec _ buf [] (le_refl _)⟩
          | true => exact ⟨[], by simp [readLines]⟩
      · exact ⟨_, rfl⟩
  · exact ⟨_, rfl⟩

theorem newSettings_total (name : Str) (env : Env) : ∃ m, newSettings name env = some m := by
  obtain ⟨lines, h⟩ := settingsLines_total name env
  obtain ⟨m, hm⟩ := parseSettings_total lines
  exact ⟨m, by simp [newSettings, h, hm]⟩

/-! ## Lemmas: the search -/

theorem forEach_total (f : Str → Option Output) : ∀ l : List Str,
    (∀ p ∈ l, ∃ o, f p = some o) → ∃ o, forEach f l = some o := by
  intro l
  induction l with
  | nil => intro _; exact ⟨_, rfl⟩
  | cons p ps ih =>
    intro h
    obtain ⟨o, ho⟩ := h p (List.mem_cons_self _ _)
    obtain ⟨os, hos⟩ := ih (fun q hq => h q (List.mem_cons_of_mem _ hq))
    exact ⟨Output.append o os, by simp [forEach, ho, hos]⟩

theorem forEach_congr (f g : Str → Option Output) : ∀ l : List Str,
    (∀ p ∈ l, f p = g p) → forEach f l = forEach g l := by
  intro l
  induction l with
  | nil => intro _; rfl
  | cons p ps ih =>
    intro h
    simp only [forEach, h p (List.mem_cons_self _ _),
      ih (fun q hq => h q (List.mem_cons_of_mem _ hq))]

theorem Output.append_empty (o : Output) : Output.append o Output.empty = o := by
  simp [Output.append, Output.empty]

theorem Output.empty_append (o : Output) : Output.append Output.empty o = o := by
  simp [Output.append, Output.empty]

theorem search_nondir (fs : FileSystem) (settings : Settings) (pattern path : Str)
    (fuel level : Nat) (hdir : (fs path).is_directory = false) :
    search fs settings pattern (fuel + 1) path level =
      if level = 0 ∨ (fs path).is_regular_file = true then
        if level > 0 ∧ is_valid_suffix settings (extension path) = false then some Output.empty
        else some (fileOutput path pattern (fs path).opened)
      else some Output.empty := by
  unfold search
  simp only [hdir, Bool.false_eq_true, if_false, openAndSearch_eq]

theorem search_dir (fs : FileSystem) (settings : Settings) (pattern path : Str)
    (fuel level : Nat) (hdir : (fs path).is_directory = true) :
    search fs settings pattern (fuel + 1) path level =
      forEach (fun f => search fs settings pattern fuel f (level + 1))
        (sortPaths ((fs path).names.map (fun n => pathAppend path n))) := by
  conv_lhs => unfold search
  simp only [hdir, if_true]

theorem search_total (fs : FileSystem) (settings : Settings) (pattern : Str) (depth : Nat) :
    ∀ (path : Str) (level : Nat), walkWithin fs depth path = true →
      ∃ o, search fs settings pattern depth path level = some o := by
  induction depth with
  | zero => intro path level h; simp [walkWithin] at h
  | succ depth ih =>
    intro path level h
    by_cases hdir : (fs path).is_directory = true
    · rw [search_dir fs settings pattern path depth level hdir]
      apply forEach_total
      intro p hp
      have hp2 : p ∈ (fs path).names.map (fun n => pathAppend path n) :=
        (List.mem_insertionSort _).mp hp
      obtain ⟨n, hn, rfl⟩ := List.mem_map.mp hp2
      simp only [walkWithin, hdir, Bool.not_true, Bool.false_or, List.all_eq_true] at h
      exact ih _ _ (h n hn)
    · have hdir2 : (fs path).is_directory = false := by simpa using hdir
      rw [search_nondir fs settings pattern path depth level hdir2]
      split
      · split
        · exact ⟨_, rfl⟩
        · exact ⟨_, rfl⟩
      · exact ⟨_, rfl⟩

theorem search_file_below (fs : FileSystem) (settings : Settings) (pattern path : Str)
    (fuel level : Nat) (hlevel : 0 < level) (hdir : (fs path).is_directory = false)
    (hreg : (fs path).is_regular_file = true) :
    search fs settings pattern (fuel + 1) path level =
      some (if is_valid_suffix settings (extension path) = true then
        fileOutput path pattern (fs path).opened else Output.empty) := by
  rw [search_nondir fs settings pattern path fuel level hdir]
  have h0 : level ≠ 0 := by omega
  cases hv : is_valid_suffix settings (extension path) <;> simp [hreg, hlevel]

theorem fileOutput_opened (path pattern : Str) (r : Except Str Str) :
    (fileOutput path pattern r).opened = [path] := by
  cases r <;> rfl

theorem search_perm (fs fs2 : FileSystem) (settings : Settings) (pattern : Str)
    (hsame : ∀ p, (fs2 p).is_directory = (fs p).is_directory ∧
      (fs2 p).is_regular_file = (fs p).is_regular_file ∧ (fs2 p).opened = (fs p).opened ∧
      ((fs p).is_directory = true → (fs2 p).names.Perm (fs p).names))
    (hvalid : ∀ p, (fs p).is_directory = true → ∀ n ∈ (fs p).names, validName n = true)
    (fuel : Nat) :
    ∀ (path : Str) (level : Nat),
      search fs2 settings pattern fuel path level = search fs settings pattern fuel path level := by
  induction fuel with
  | zero => intro path level; rfl
  | succ fuel ih =>
    intro path level
    obtain ⟨h1, h2, h3, h4⟩ := hsame path
    by_cases hdir : (fs path).is_directory = true
    · rw [search_dir fs settings pattern path fuel level hdir,
        search_dir fs2 settings pattern path fuel level (h1.trans hdir),
        sortPaths_perm path _ _ (h4 hdir)
          (fun n hn => hvalid path hdir n ((h4 hdir).mem_iff.mp hn))]
      exact forEach_congr _ _ _ (fun p _ => ih p (level + 1))
    · have hdir2 : (fs path).is_directory = false := by simpa using hdir
      rw [search_nondir fs settings pattern path fuel level hdir2,
        search_nondir fs2 settings pattern path fuel level (h1.trans hdir2), h2, h3]

theorem is_valid_suffix_eq (m : Settings) (x : Str) :
    is_valid_suffix m x =
      decide ((if (tolowercase x).head? = some '.' then (tolowercase x).drop 1
        else tolowercase x) ∈ m.m_suffixes) := by
  unfold is_valid_suffix
  simp only [find_char_eq_zero_iff, substrFrom]

theorem is_valid_suffix_lower (m : Settings) (x y : Str) (h : tolowercase x = tolowercase y) :
    is_valid_suffix m x = is_valid_suffix m y := by
  rw [is_valid_suffix_eq, is_valid_suffix_eq, h]

theorem is_valid_suffix_plain (m : Settings) (s : Str) (hs : s.head? ≠ some '.') :
    is_valid_suffix m s = decide (tolowercase s ∈ m.m_suffixes) := by
  rw [is_valid_suffix_eq, if_neg (fun h => hs ((tolowercase_head_dot s).mp h))]

theorem is_valid_suffix_dot (m : Settings) (s : Str) :
    is_valid_suffix m ('.' :: s) = decide (tolowercase s ∈ m.m_suffixes) := by
  rw [is_valid_suffix_eq]
  have : tolowercase ('.' :: s) = '.' :: tolowercase s := by
    rw [tolowercase_cons]
    congr 1
  rw [this]
  simp

theorem parseLine_suffixes (st : ParseState) (value : Str)
    (hsec : st.section_ = "files".toList) :
    parseLine st ("suffixes=".toList ++ value) =
      some ⟨st.section_,
        ⟨st.settings.m_suffixes ++ (extractedWords value).map tolowercase⟩⟩ := by
  have e : "suffixes=".toList ++ value =
      's' :: 'u' :: 'f' :: 'f' :: 'i' :: 'x' :: 'e' :: 's' :: '=' :: value := rfl
  have hl : ltrim ('s' :: 'u' :: 'f' :: 'f' :: 'i' :: 'x' :: 'e' :: 's' :: '=' :: value) =
      's' :: 'u' :: 'f' :: 'f' :: 'i' :: 'x' :: 'e' :: 's' :: '=' :: value := by
    simp [ltrim, find_first_not_of, substrFrom]
  have hf : find ('s' :: 'u' :: 'f' :: 'f' :: 'i' :: 'x' :: 'e' :: 's' :: '=' :: value) ['='] =
      some 8 := by
    simp [find, List.isPrefixOf]
  have hb : ¬ find ('s' :: 'u' :: 'f' :: 'f' :: 'i' :: 'x' :: 'e' :: 's' :: '=' :: value) ['['] =
      some 0 := by
    rw [find_char_eq_zero_iff]
    simp
  rw [e]
  unfold parseLine
  simp only [hl, hf, if_neg hb, process_spec, hsec]
  have hk : substr ('s' :: 'u' :: 'f' :: 'f' :: 'i' :: 'x' :: 'e' :: 's' :: '=' :: value) 0 8 =
      "suffixes".toList := rfl
  have hv : substrFrom ('s' :: 'u' :: 'f' :: 'f' :: 'i' :: 'x' :: 'e' :: 's' :: '=' :: value)
      (8 + 1) = value := rfl
  rw [hk, hv]
  simp

theorem ifstreamOpen_absent (f : FileState) (h : f.content = none) : ifstreamOpen f = none := by
  unfold ifstreamOpen
  rw [h]
  split <;> rfl

theorem ifstreamOpen_created (f : FileState) (hw : f.writable = true) (hr : f.readable = true) :
    ifstreamOpen (writeDefaults f) =
      some ⟨default_settings.foldl (fun acc line => acc ++ line ++ ['\n']) [], false⟩ := by
  unfold ifstreamOpen writeDefaults
  rw [if_pos hw]
  simp only [hr, if_true, Option.map_some']

theorem writeDefaults_locked (f : FileState) (hw : f.writable = false) : writeDefaults f = f := by
  unfold writeDefaults
  rw [if_neg (by rw [hw]; decide)]

/-! ## The claims -/

/-- Claim C1: line matching is complete.  For every file content, path and
pattern (the empty pattern included) and every line of the content (the text
between newlines, the `k+1`-th one) that contains the pattern as a substring,
opening and searching the file succeeds and its standard output holds exactly
one record `path:k+1: line`, which reaches the stream followed by a newline;
and that is the output of `search` on the path at level 0 whenever the path
is not a directory and opens with this content. -/
theorem line_matching_complete (path pattern content line : Str) (k : Nat)
    (hline : (textLines content)[k]? = some line) (hmatch : pattern <:+: line) :
    ∃ out, openAndSearch path pattern (.ok content) = some ⟨out, [], [path]⟩ ∧
      out.count (path ++ [':'] ++ decimal (k + 1) ++ [':', ' '] ++ line) = 1 ∧
      (∃ before after, render out =
        before ++ (path ++ [':'] ++ decimal (k + 1) ++ [':', ' '] ++ line ++ ['\n']) ++ after) ∧
      ∀ (fs : FileSystem) (settings : Settings) (fuel : Nat),
        (fs path).is_directory = false → (fs path).opened = .ok content →
        search fs settings pattern (fuel + 1) path 0 = some ⟨out, [], [path]⟩ := by
  have hrec : path ++ [':'] ++ decimal (k + 1) ++ [':', ' '] ++ line = record path (k + 1) line := by
    simp [record]
  rw [hrec]
  have hmem : record path (k + 1) line ∈ matchRecords path pattern 0 (textLines content) := by
    have := matchRecords_mem path pattern (textLines content) 0 k line hline hmatch
    simpa using this
  refine ⟨matchRecords path pattern 0 (textLines content), ?_, ?_, ?_, ?_⟩
  · rw [openAndSearch_eq]; rfl
  · exact count_eq_one_of_nodup _ _ (matchRecords_nodup path pattern _ 0) hmem
  · obtain ⟨s, t, hst⟩ := List.append_of_mem hmem
    refine ⟨render s, render t, ?_⟩
    rw [hst]
    simp [render, List.flatMap_append]
  · intro fs settings fuel hdir hopen
    rw [search_nondir fs settings pattern path fuel 0 hdir, hopen]
    simp [fileOutput]

/-- The claim C1 at the file `hello\nworld\n`, pattern `lo`, first line. -/
theorem line_matching_complete_witness :
    (textLines "hello\nworld\n".toList)[0]? = some "hello".toList ∧
    "lo".toList <:+: "hello".toList ∧
    ∃ out, openAndSearch "f".toList "lo".toList (.ok "hello\nworld\n".toList) =
        some ⟨out, [], ["f".toList]⟩ ∧
      out.count ("f".toList ++ [':'] ++ decimal (0 + 1) ++ [':', ' '] ++ "hello".toList) = 1 ∧
      (∃ before after, render out =
        before ++ ("f".toList ++ [':'] ++ decimal (0 + 1) ++ [':', ' '] ++ "hello".toList ++ ['\n'])
          ++ after) ∧
      ∀ (fs : FileSystem) (settings : Settings) (fuel : Nat),
        (fs "f".toList).is_directory = false → (fs "f".toList).opened = .ok "hello\nworld\n".toList →
        search fs settings "lo".toList (fuel + 1) "f".toList 0 = some ⟨out, [], ["f".toList]⟩ :=
  ⟨by decide, ⟨"hel".toList, [], rfl⟩,
    line_matching_complete "f".toList "lo".toList "hello\nworld\n".toList "hello".toList 0
      (by decide) ⟨"hel".toList, [], rfl⟩⟩

/-- Claim C2: top-level override.  For every two suffix configurations and
every path that is not a directory, `search` at level 0 gives the output of
opening and searching that file (its match records, or the open-error line),
and so the same output under both configurations: `is_valid_suffix` plays no
part. -/
theorem top_level_override (fs : FileSystem) (s1 s2 : Settings) (pattern path : Str) (fuel : Nat)
    (hdir : (fs path).is_directory = false) :
    search fs s1 pattern (fuel + 1) path 0 = some (fileOutput path pattern (fs path).opened) ∧
    search fs s1 pattern (fuel + 1) path 0 = openAndSearch path pattern (fs path).opened ∧
    search fs s1 pattern (fuel + 1) path 0 = search fs s2 pattern (fuel + 1) path 0 := by
  have h : ∀ s : Settings, search fs s pattern (fuel + 1) path 0 =
      some (fileOutput path pattern (fs path).opened) := by
    intro s
    rw [search_nondir fs s pattern path fuel 0 hdir]
    simp
  exact ⟨h s1, by rw [h s1, openAndSearch_eq], by rw [h s1, h s2]⟩

/-- The claim C2 at `d/b.dat` with the suffixes `txt` and `log`, against the
empty configuration. -/
theorem top_level_override_witness :
    (exampleFs "d/b.dat".toList).is_directory = false ∧
    search exampleFs txtLog "ell".toList 1 "d/b.dat".toList 0 =
      some (fileOutput "d/b.dat".toList "ell".toList (exampleFs "d/b.dat".toList).opened) ∧
    search exampleFs txtLog "ell".toList 1 "d/b.dat".toList 0 =
      openAndSearch "d/b.dat".toList "ell".toList (exampleFs "d/b.dat".toList).opened ∧
    search exampleFs txtLog "ell".toList 1 "d/b.dat".toList 0 =
      search exampleFs ⟨[]⟩ "ell".toList 1 "d/b.dat".toList 0 :=
  ⟨by decide, top_level_override exampleFs txtLog ⟨[]⟩ "ell".toList "d/b.dat".toList 0 (by decide)⟩

/-- Claim C3: suffix filtering below the top level.  A regular file reached at
a level above 0 is opened and searched exactly when `is_valid_suffix` accepts
the extension of its path; when it does not, the call writes nothing and opens
nothing.  With the suffixes `txt` and `log`, a directory that holds `a.txt`,
`b.dat` and `c.TXT` (listed in any order) yields the output of `a.txt` followed
by that of `c.TXT`, and nothing from `b.dat`. -/
theorem suffix_filter_below_top :
    (∀ (fs : FileSystem) (settings : Settings) (pattern path : Str) (fuel level : Nat),
      0 < level → (fs path).is_directory = false → (fs path).is_regular_file = true →
      ∃ o, search fs settings pattern (fuel + 1) path level = some o ∧
        (o.opened = [path] ↔ is_valid_suffix settings (extension path) = true) ∧
        (is_valid_suffix settings (extension path) = true →
          o = fileOutput path pattern (fs path).opened) ∧
        (is_valid_suffix settings (extension path) = false →
          o.out = [] ∧ o.err = [] ∧ o.opened = [])) ∧
    (∀ (fs : FileSystem) (pattern dir : Str) (fuel level : Nat),
      (fs dir).is_directory = true →
      (fs dir).names.Perm ["a.txt".toList, "b.dat".toList, "c.TXT".toList] →
      (∀ n ∈ ["a.txt".toList, "b.dat".toList, "c.TXT".toList],
        (fs (pathAppend dir n)).is_directory = false ∧
          (fs (pathAppend dir n)).is_regular_file = true) →
      search fs txtLog pattern (fuel + 2) dir level =
        some (Output.append
          (fileOutput (pathAppend dir "a.txt".toList) pattern
            (fs (pathAppend dir "a.txt".toList)).opened)
          (fileOutput (pathAppend dir "c.TXT".toList) pattern
            (fs (pathAppend dir "c.TXT".toList)).opened))) := by
  constructor
  · intro fs settings pattern path fuel level hlevel hdir hreg
    refine ⟨_, search_file_below fs settings pattern path fuel level hlevel hdir hreg, ?_, ?_, ?_⟩
    · cases hv : is_valid_suffix settings (extension path)
      · simp [Output.empty]
      · simp [fileOutput_opened]
    · intro hv; simp [hv]
    · intro hv; simp [hv, Output.empty]
  · intro fs pattern dir fuel level hdir hperm hkids
    have hv3 : ∀ n ∈ ["a.txt".toList, "b.dat".toList, "c.TXT".toList], validName n = true := by
      decide
    have hv : ∀ n ∈ (fs dir).names, validName n = true :=
      fun n hn => hv3 n (hperm.mem_iff.mp hn)
    have hsorted : List.insertionSort (fun a b => strLt b a = false)
        ["a.txt".toList, "b.dat".toList, "c.TXT".toList] =
        ["a.txt".toList, "b.dat".toList, "c.TXT".toList] := by decide
    have ha := hkids "a.txt".toList (by simp)
    have hb := hkids "b.dat".toList (by simp)
    have hc := hkids "c.TXT".toList (by simp)
    have va : is_valid_suffix txtLog (extension "a.txt".toList) = true := by decide
    have vb : is_valid_suffix txtLog (extension "b.dat".toList) = true ↔ False := by decide
    have vc : is_valid_suffix txtLog (extension "c.TXT".toList) = true := by decide
    rw [search_dir fs txtLog pattern dir (fuel + 1) level hdir, sortPaths_children dir _ hv,
      sortNames_perm _ _ hperm, hsorted]
    simp only [List.map, forEach]
    rw [search_file_below fs txtLog pattern _ fuel (level + 1) (Nat.succ_pos _) ha.1 ha.2,
      search_file_below fs txtLog pattern _ fuel (level + 1) (Nat.succ_pos _) hb.1 hb.2,
      search_file_below fs txtLog pattern _ fuel (level + 1) (Nat.succ_pos _) hc.1 hc.2,
      extension_pathAppend dir _ (hv3 _ (by simp)), extension_pathAppend dir _ (hv3 _ (by simp)),
      extension_pathAppend dir _ (hv3 _ (by simp))]
    simp only [va, vb, vc, if_true, if_false, Option.map_some', Output.append_empty,
      Output.empty_append]

/-- The claim C3 on the example directory `d`: `d/b.dat` at level 1 writes
nothing, `d/c.TXT` at level 1 is searched, and the walk of `d` gives the
records of `a.txt` and `c.TXT`. -/
theorem suffix_filter_below_top_witness :
    (∃ o, search exampleFs txtLog "".toList 1 "d/b.dat".toList 1 = some o ∧
        (o.opened = ["d/b.dat".toList] ↔
          is_valid_suffix txtLog (extension "d/b.dat".toList) = true) ∧
        (is_valid_suffix txtLog (extension "d/b.dat".toList) = true →
          o = fileOutput "d/b.dat".toList "".toList (exampleFs "d/b.dat".toList).opened) ∧
        (is_valid_suffix txtLog (extension "d/b.dat".toList) = false →
          o.out = [] ∧ o.err = [] ∧ o.opened = [])) ∧
    is_valid_suffix txtLog (extension "d/b.dat".toList) = false ∧
    search exampleFs txtLog "o".toList 2 "d".toList 0 =
      some (Output.append
        (fileOutput (pathAppend "d".toList "a.txt".toList) "o".toList
          (exampleFs (pathAppend "d".toList "a.txt".toList)).opened)
        (fileOutput (pathAppend "d".toList "c.TXT".toList) "o".toList
          (exampleFs (pathAppend "d".toList "c.TXT".toList)).opened)) ∧
    search exampleFs txtLog "o".toList 2 "d".toList 0 =
      some ⟨["d/a.txt:1: hello".toList, "d/a.txt:2: world".toList, "d/c.TXT:1: low".toList], [],
        ["d/a.txt".toList, "d/c.TXT".toList]⟩ :=
  ⟨suffix_filter_below_top.1 exampleFs txtLog "".toList "d/b.dat".toList 0 1 (by decide)
      (by decide) (by decide),
    by decide,
    suffix_filter_below_top.2 exampleFs "o".toList "d".toList 0 0 (by decide) (by decide)
      (by decide),
    by decide⟩

/-- Claim C4: deterministic ordering.  When two file systems differ only in the
order in which each directory lists its entries (the filenames of a directory
being proper filenames: not empty, without separator), `search` gives the same result on
both, for every configuration, pattern, path and level; and on a tree of
bounded depth that result is an output, the same for both.  Distinct names
are not even needed: equal names give equal paths. -/
theorem search_order_independent (fs fs2 : FileSystem) (settings : Settings) (pattern : Str)
    (hsame : ∀ p, (fs2 p).is_directory = (fs p).is_directory ∧
      (fs2 p).is_regular_file = (fs p).is_regular_file ∧ (fs2 p).opened = (fs p).opened ∧
      ((fs p).is_directory = true → (fs2 p).names.Perm (fs p).names))
    (hvalid : ∀ p, (fs p).is_directory = true → ∀ n ∈ (fs p).names, validName n = true)
    (depth : Nat) (path : Str) (level : Nat) :
    search fs2 settings pattern depth path level = search fs settings pattern depth path level ∧
    (walkWithin fs depth path = true →
      ∃ o, search fs settings pattern depth path level = some o ∧
        search fs2 settings pattern depth path level = some o) := by
  have h := search_perm fs fs2 settings pattern hsame hvalid depth path level
  refine ⟨h, fun hw => ?_⟩
  obtain ⟨o, ho⟩ := search_total fs settings pattern depth path level hw
  exact ⟨o, ho, by rw [h, ho]⟩

/-- The claim C4 on the example directory `d`, listed in two orders. -/
theorem search_order_independent_witness :
    (∀ p, (exampleFs2 p).is_directory = (exampleFs p).is_directory ∧
      (exampleFs2 p).is_regular_file = (exampleFs p).is_regular_file ∧
      (exampleFs2 p).opened = (exampleFs p).opened ∧
      ((exampleFs p).is_directory = true → (exampleFs2 p).names.Perm (exampleFs p).names)) ∧
    (∀ p, (exampleFs p).is_directory = true → ∀ n ∈ (exampleFs p).names, validName n = true) ∧
    search exampleFs2 txtLog "o".toList 2 "d".toList 0 =
      search exampleFs txtLog "o".toList 2 "d".toList 0 ∧
    (walkWithin exampleFs 2 "d".toList = true →
      ∃ o, search exampleFs txtLog "o".toList 2 "d".toList 0 = some o ∧
        search exampleFs2 txtLog "o".toList 2 "d".toList 0 = some o) :=
  have hsame : ∀ p, (exampleFs2 p).is_directory = (exampleFs p).is_directory ∧
      (exampleFs2 p).is_regular_file = (exampleFs p).is_regular_file ∧
      (exampleFs2 p).opened = (exampleFs p).opened ∧
      ((exampleFs p).is_directory = true → (exampleFs2 p).names.Perm (exampleFs p).names) := by
    intro p
    by_cases h : p = "d".toList
    · subst h
      exact ⟨by decide, by decide, rfl, fun _ => by decide⟩
    · unfold exampleFs2
      rw [if_neg h]
      exact ⟨rfl, rfl, rfl, fun _ => List.Perm.refl _⟩
  have hvalid : ∀ p, (exampleFs p).is_directory = true →
      ∀ n ∈ (exampleFs p).names, validName n = true := by
    intro p _
    unfold exampleFs
    split_ifs <;> decide
  ⟨hsame, hvalid,
    search_order_independent exampleFs exampleFs2 txtLog "o".toList hsame hvalid 2 "d".toList 0⟩

/-- Claim C5: the membership test is case-insensitive and tolerates one leading
dot on the query.  For every configuration and every string `s` that does not
begin with a dot, `is_valid_suffix` gives the same answer on `s`, on `.s`, on
every case variant `s2` of `s` and on every case variant `s3` of `.s`, namely
whether the lowercase of `s` is a configured suffix; and on `..s` it tests
whether `.` followed by the lowercase of `s` is a configured suffix. -/
theorem is_valid_suffix_case_dot (m : Settings) (s s2 s3 : Str) (hs : s.head? ≠ some '.')
    (h2 : tolowercase s2 = tolowercase s) (h3 : tolowercase s3 = tolowercase ('.' :: s)) :
    is_valid_suffix m ('.' :: s) = is_valid_suffix m s ∧
    is_valid_suffix m s2 = is_valid_suffix m s ∧
    is_valid_suffix m s3 = is_valid_suffix m s ∧
    is_valid_suffix m s = decide (tolowercase s ∈ m.m_suffixes) ∧
    is_valid_suffix m ('.' :: '.' :: s) = decide ('.' :: tolowercase s ∈ m.m_suffixes) := by
  have hp := is_valid_suffix_plain m s hs
  have hd := is_valid_suffix_dot m s
  refine ⟨by rw [hd, hp], by rw [is_valid_suffix_lower m s2 s h2],
    by rw [is_valid_suffix_lower m s3 _ h3, hd, hp], hp, ?_⟩
  rw [is_valid_suffix_dot m ('.' :: s)]
  have : tolowercase ('.' :: s) = '.' :: tolowercase s := by
    rw [tolowercase_cons]
    congr 1
  rw [this]

/-- The claim C5 at the suffixes `txt` and `log`, with `s = txt`, `s2 = TxT`
and `s3 = .TXT`. -/
theorem is_valid_suffix_case_dot_witness :
    "txt".toList.head? ≠ some '.' ∧
    tolowercase "TxT".toList = tolowercase "txt".toList ∧
    tolowercase ".TXT".toList = tolowercase ('.' :: "txt".toList) ∧
    (is_valid_suffix txtLog ('.' :: "txt".toList) = is_valid_suffix txtLog "txt".toList ∧
    is_valid_suffix txtLog "TxT".toList = is_valid_suffix txtLog "txt".toList ∧
    is_valid_suffix txtLog ".TXT".toList = is_valid_suffix txtLog "txt".toList ∧
    is_valid_suffix txtLog "txt".toList = decide (tolowercase "txt".toList ∈ txtLog.m_suffixes) ∧
    is_valid_suffix txtLog ('.' :: '.' :: "txt".toList) =
      decide ('.' :: tolowercase "txt".toList ∈ txtLog.m_suffixes)) :=
  ⟨by decide, by decide, by decide,
    is_valid_suffix_case_dot txtLog "txt".toList "TxT".toList ".TXT".toList (by decide)
      (by decide) (by decide)⟩

/-- Claim C6, as the code has it: the configuration `[files]`, `suffixes=.TXT`
loads the suffix `.txt`, dot included; the dot-free `txt` is not loaded and a
file with the extension `.txt` is not eligible, while `suffixes=txt` makes it
eligible. -/
theorem config_dot_kept_counterexample :
    ".TXT".toList ∈ specTokens ".TXT".toList ∧
    parseSettings ["[files]".toList, "suffixes=.TXT".toList] = some ⟨[".txt".toList]⟩ ∧
    "txt".toList ∉ (⟨[".txt".toList]⟩ : Settings).m_suffixes ∧
    is_valid_suffix ⟨[".txt".toList]⟩ ".txt".toList = false ∧
    parseSettings ["[files]".toList, "suffixes=txt".toList] = some ⟨["txt".toList]⟩ ∧
    is_valid_suffix ⟨["txt".toList]⟩ ".txt".toList = true := by
  decide

/-- Claim C6, amended: letter case is irrelevant in the configuration file, and
a leading dot is kept as part of the suffix.  When the line `suffixes=<value>`
is read while the current section is `files`, then for every
whitespace-separated token `t` of the value the loaded suffix list holds the
lowercase of `t`, whatever lines follow, so that `is_valid_suffix` accepts `.`
followed by the lowercase of `t`; and when `t` has no leading dot it accepts
every case variant `t2` of `t`, with or without a leading dot. -/
theorem config_tokens_loaded (l1 l2 : List Str) (st1 : ParseState) (value t t2 : Str)
    (h1 : parseLines ⟨[], ⟨[]⟩⟩ l1 = some st1) (hsec : st1.section_ = "files".toList)
    (ht : t ∈ specTokens value) (ht2 : tolowercase t2 = tolowercase t) :
    ∃ m, parseSettings (l1 ++ ("suffixes=".toList ++ value) :: l2) = some m ∧
      tolowercase t ∈ m.m_suffixes ∧
      is_valid_suffix m ('.' :: tolowercase t) = true ∧
      (t.head? ≠ some '.' →
        is_valid_suffix m t2 = true ∧ is_valid_suffix m ('.' :: t2) = true) := by
  obtain ⟨st3, h3, more, e3⟩ := parseLines_total l2
    ⟨st1.section_, ⟨st1.settings.m_suffixes ++ (extractedWords value).map tolowercase⟩⟩
  have hparse : parseLines ⟨[], ⟨[]⟩⟩ (l1 ++ ("suffixes=".toList ++ value) :: l2) = some st3 := by
    rw [parseLines_append l1 _ _ st1 h1]
    simp only [parseLines, parseLine_suffixes st1 value hsec]
    exact h3
  have hmem : tolowercase t ∈ st3.settings.m_suffixes := by
    rw [e3]
    apply List.mem_append_left
    apply List.mem_append_right
    apply List.mem_map_of_mem
    unfold extractedWords
    exact List.mem_append_left _ ht
  refine ⟨st3.settings, by unfold parseSettings; rw [hparse]; rfl, hmem, ?_, ?_⟩
  · rw [is_valid_suffix_dot, tolowercase_idem]
    simpa using hmem
  · intro hdot
    have hdot2 : t2.head? ≠ some '.' := by
      intro h
      apply hdot
      rw [← tolowercase_head_dot] at h ⊢
      rw [← ht2]
      exact h
    rw [is_valid_suffix_plain _ t2 hdot2, is_valid_suffix_dot, ht2]
    simpa using hmem

/-- The amended claim C6 at `[files]`, `suffixes=log  TXT`, token `TXT`, case
variant `Txt`. -/
theorem config_tokens_loaded_witness :
    parseLines ⟨[], ⟨[]⟩⟩ ["[files]".toList] = some ⟨"files".toList, ⟨[]⟩⟩ ∧
    "TXT".toList ∈ specTokens "log  TXT".toList ∧
    tolowercase "Txt".toList = tolowercase "TXT".toList ∧
    ∃ m, parseSettings (["[files]".toList] ++ ("suffixes=".toList ++ "log  TXT".toList) :: []) =
        some m ∧
      tolowercase "TXT".toList ∈ m.m_suffixes ∧
      is_valid_suffix m ('.' :: tolowercase "TXT".toList) = true ∧
      ("TXT".toList.head? ≠ some '.' →
        is_valid_suffix m "Txt".toList = true ∧ is_valid_suffix m ('.' :: "Txt".toList) = true) :=
  ⟨by decide, by decide, by decide,
    config_tokens_loaded ["[files]".toList] [] ⟨"files".toList, ⟨[]⟩⟩ "log  TXT".toList
      "TXT".toList "Txt".toList (by decide) (by decide) (by decide) (by decide)⟩

/-- Claim C7: the default configuration.  Parsing the two built-in default
lines gives the suffix list `txt log xml html c h cpp cs java bat sh sql`
exactly; each of them is accepted with and without a leading dot, and `.md`
and the empty extension are rejected. -/
theorem default_configuration :
    parseSettings default_settings = some ⟨defaultSuffixes⟩ ∧
    defaultSuffixes.all (fun s =>
      is_valid_suffix ⟨defaultSuffixes⟩ s && is_valid_suffix ⟨defaultSuffixes⟩ ('.' :: s)) = true ∧
    is_valid_suffix ⟨defaultSuffixes⟩ ".md".toList = false ∧
    is_valid_suffix ⟨defaultSuffixes⟩ [] = false := by
  decide

/-- Claim C8: configuration loading always degrades to the default.  When
(a) neither `HOME` nor `USERPROFILE` is set, or (b) the settings file can be
neither opened for reading nor created, or (c) the file is absent, can be
created and is read back, the constructor returns the settings obtained by
parsing the in-memory default lines, which are the twelve default suffixes.
In case (c) the lines read back are the default lines and one empty line. -/
theorem settings_degrade_to_default (name : Str) (env : Env)
    (h : (env.HOME = none ∧ env.USERPROFILE = none) ∨
      (∃ home, env.HOME.orElse (fun _ => env.USERPROFILE) = some home ∧
        ifstreamOpen (env.file (pathAppend home (name ++ ".ini".toList))) = none ∧
        (env.file (pathAppend home (name ++ ".ini".toList))).writable = false) ∨
      (∃ home, env.HOME.orElse (fun _ => env.USERPROFILE) = some home ∧
        (env.file (pathAppend home (name ++ ".ini".toList))).content = none ∧
        (env.file (pathAppend home (name ++ ".ini".toList))).writable = true ∧
        (env.file (pathAppend home (name ++ ".ini".toList))).readable = true)) :
    newSettings name env = parseSettings default_settings ∧
    parseSettings default_settings = some ⟨defaultSuffixes⟩ ∧
    ((∃ home, env.HOME.orElse (fun _ => env.USERPROFILE) = some home ∧
        (env.file (pathAppend home (name ++ ".ini".toList))).content = none ∧
        (env.file (pathAppend home (name ++ ".ini".toList))).writable = true ∧
        (env.file (pathAppend home (name ++ ".ini".toList))).readable = true) →
      settingsLines name env = some (default_settings ++ [[]])) := by
  have hc : ∀ home, env.HOME.orElse (fun _ => env.USERPROFILE) = some home →
      (env.file (pathAppend home (name ++ ".ini".toList))).content = none →
      (env.file (pathAppend home (name ++ ".ini".toList))).writable = true →
      (env.file (pathAppend home (name ++ ".ini".toList))).readable = true →
      settingsLines name env = some (default_settings ++ [[]]) := by
    intro home hhome hcontent hw hr
    unfold settingsLines
    simp only [hhome]
    rw [ifstreamOpen_absent _ hcontent, ifstreamOpen_created _ hw hr]
    decide
  have hdef : parseSettings (default_settings ++ [[]]) = parseSettings default_settings := by
    decide
  refine ⟨?_, by decide, fun ⟨home, a, b, c, d⟩ => hc home a b c d⟩
  rcases h with ⟨ha, hb⟩ | ⟨home, hhome, hopen, hw⟩ | ⟨home, hhome, hcontent, hw, hr⟩
  · simp [newSettings, settingsLines, ha, hb]
  · unfold newSettings settingsLines
    simp only [hhome, hopen, writeDefaults_locked _ hw]
  · unfold newSettings
    rw [hc home hhome hcontent hw hr]
    exact hdef

/-- The claim C8 in the three cases: no home directory, a settings file that
can be neither read nor created, and an absent settings file that is created
and read back. -/
theorem settings_degrade_to_default_witness :
    (newSettings "grep55".toList homelessEnv = parseSettings default_settings ∧
      parseSettings default_settings = some ⟨defaultSuffixes⟩) ∧
    (newSettings "grep55".toList lockedEnv = parseSettings default_settings) ∧
    (newSettings "grep55".toList exampleEnv = parseSettings default_settings ∧
      settingsLines "grep55".toList exampleEnv = some (default_settings ++ [[]])) :=
  ⟨⟨(settings_degrade_to_default "grep55".toList homelessEnv (Or.inl ⟨rfl, rfl⟩)).1,
      (settings_degrade_to_default "grep55".toList homelessEnv (Or.inl ⟨rfl, rfl⟩)).2.1⟩,
    (settings_degrade_to_default "grep55".toList lockedEnv
      (Or.inr (Or.inl ⟨"C:/Users/u".toList, rfl, rfl, rfl⟩))).1,
    ⟨(settings_degrade_to_default "grep55".toList exampleEnv
        (Or.inr (Or.inr ⟨"/home/u".toList, rfl, rfl, rfl, rfl⟩))).1,
      (settings_degrade_to_default "grep55".toList exampleEnv
        (Or.inr (Or.inr ⟨"/home/u".toList, rfl, rfl, rfl, rfl⟩))).2.2
        ⟨"/home/u".toList, rfl, rfl, rfl, rfl⟩⟩⟩

/-- Claim C9: a missing start path.  For every pattern and configuration,
`search` at level 0 on a path that is not a directory and cannot be opened
writes nothing to the standard output and one line to the error stream, the
error description followed by `: ` and the path; and a run of `main` with that
path as its only start path returns the exit status 0 with that output. -/
theorem missing_start_path (w : World) (settings : Settings) (argv0 pattern path e : Str)
    (fuel : Nat) (hdir : (w.fs path).is_directory = false)
    (hopen : (w.fs path).opened = .error e) :
    search w.fs settings pattern (fuel + 1) path 0 = some ⟨[], [e ++ [':', ' '] ++ path], [path]⟩ ∧
    main (fuel + 1) w argv0 [pattern, path] =
      some (0, ⟨[], [e ++ [':', ' '] ++ path], [path]⟩) := by
  have hs : ∀ s : Settings, search w.fs s pattern (fuel + 1) path 0 =
      some ⟨[], [e ++ [':', ' '] ++ path], [path]⟩ := by
    intro s
    rw [search_nondir w.fs s pattern path fuel 0 hdir, hopen]
    simp [fileOutput]
  refine ⟨hs settings, ?_⟩
  obtain ⟨m, hm⟩ := newSettings_total (stem argv0) w.env
  unfold main
  rw [hm]
  simp only [List.isEmpty_cons, Bool.false_eq_true, if_false, forEach, hs m, Option.map_some',
    Output.append_empty]

/-- The claim C9 in the example world, at the missing path `nope`. -/
theorem missing_start_path_witness :
    (exampleWorld.fs "nope".toList).is_directory = false ∧
    (exampleWorld.fs "nope".toList).opened = .error "No such file or directory".toList ∧
    search exampleWorld.fs txtLog "o".toList (0 + 1) "nope".toList 0 =
      some ⟨[], ["No such file or directory".toList ++ [':', ' '] ++ "nope".toList],
        ["nope".toList]⟩ ∧
    main (0 + 1) exampleWorld "./grep55".toList ["o".toList, "nope".toList] =
      some (0, ⟨[], ["No such file or directory".toList ++ [':', ' '] ++ "nope".toList],
        ["nope".toList]⟩) :=
  ⟨rfl, rfl,
    missing_start_path exampleWorld txtLog "./grep55".toList "o".toList "nope".toList
      "No such file or directory".toList 0 rfl rfl⟩

/-- Claim C10: the exit status.  Without a pattern argument `main` returns 1,
writes the usage line alone to the error stream and opens no file; whenever
`main` returns, its status is 1 exactly when no pattern was given and 0
otherwise; and with a pattern, on start paths whose trees are at most `fuel`
levels deep, `main` does return, with status 0, whatever the walk finds. -/
theorem exit_status (fuel : Nat) (w : World) (argv0 : Str) (args : List Str) :
    (args = [] → main fuel w argv0 args = some (1, ⟨[], [usage argv0], []⟩)) ∧
    (∀ r, main fuel w argv0 args = some r → (r.1 = 1 ↔ args = []) ∧ (args ≠ [] → r.1 = 0)) ∧
    (∀ pattern rest, args = pattern :: rest →
      (∀ p ∈ (if rest.isEmpty then [w.cwd] else rest), walkWithin w.fs fuel p = true) →
      ∃ o, main fuel w argv0 args = some (0, o)) := by
  obtain ⟨m, hm⟩ := newSettings_total (stem argv0) w.env
  cases args with
  | nil =>
    refine ⟨fun _ => by simp [main, hm], ?_, ?_⟩
    · intro r hr
      simp only [main, hm, Option.some.injEq] at hr
      subst hr
      simp
    · intro pattern rest h
      exact absurd h (by simp)
  | cons pattern rest =>
    refine ⟨fun h => absurd h (by simp), ?_, ?_⟩
    · intro r hr
      simp only [main, hm, Option.map_eq_some'] at hr
      obtain ⟨o, _, rfl⟩ := hr
      simp
    · intro pattern2 rest2 h hwalk
      simp only [List.cons.injEq] at h
      obtain ⟨rfl, rfl⟩ := h
      obtain ⟨o, ho⟩ := forEach_total (fun f => search w.fs m pattern fuel f 0) _
        (fun p hp => search_total w.fs m pattern fuel p 0 (hwalk p hp))
      refine ⟨o, ?_⟩
      unfold main
      simp only [hm, ho, Option.map_some']

/-- The claim C10 in the example world: a run without arguments, and a run
with a pattern over a directory, an unreadable file and a missing path. -/
theorem exit_status_witness :
    main 2 exampleWorld "./grep55".toList [] =
      some (1, ⟨[], ["Usage: ./grep55 pattern [filename] ...".toList], []⟩) ∧
    (∃ o, main 2 exampleWorld "./grep55".toList
      ["o".toList, "d".toList, "locked".toList, "nope".toList] = some (0, o)) ∧
    main 2 exampleWorld "./grep55".toList
      ["o".toList, "d".toList, "locked".toList, "nope".toList] =
      some (0, ⟨["d/a.txt:1: hello".toList, "d/a.txt:2: world".toList, "d/c.TXT:1: low".toList],
        ["Permission denied: locked".toList, "No such file or directory: nope".toList],
        ["d/a.txt".toList, "d/c.TXT".toList, "locked".toList, "nope".toList]⟩) :=
  ⟨(exit_status 2 exampleWorld "./grep55".toList []).1 rfl,
    (exit_status 2 exampleWorld "./grep55".toList
      ["o".toList, "d".toList, "locked".toList, "nope".toList]).2.2 "o".toList
      ["d".toList, "locked".toList, "nope".toList] rfl (by decide),
    by decide⟩

/-! ## Lemmas: the parsing loop in closed form -/

theorem find_first_not_of_spec (chars : Str) : ∀ s : Str,
    (find_first_not_of s chars = none ∧ s.dropWhile (fun c => chars.contains c) = []) ∨
      (∃ i, find_first_not_of s chars = some i ∧
        s.drop i = s.dropWhile (fun c => chars.contains c) ∧
        s.dropWhile (fun c => chars.contains c) ≠ []) := by
  intro s
  induction s with
  | nil => left; exact ⟨rfl, rfl⟩
  | cons a t ih =>
    by_cases ha : chars.contains a = true
    · rcases ih with ⟨h1, h2⟩ | ⟨i, h1, h2, h3⟩
      · left
        refine ⟨?_, by rw [List.dropWhile_cons_of_pos ha]; exact h2⟩
        unfold find_first_not_of
        rw [if_pos ha, h1]
        rfl
      · right
        refine ⟨i + 1, ?_, ?_, ?_⟩
        · unfold find_first_not_of
          rw [if_pos ha, h1]
          rfl
        · rw [List.dropWhile_cons_of_pos ha]; exact h2
        · rw [List.dropWhile_cons_of_pos ha]; exact h3
    · right
      refine ⟨0, ?_, ?_, ?_⟩
      · unfold find_first_not_of
        rw [if_neg ha]
      · rw [List.dropWhile_cons_of_neg ha]; rfl
      · rw [List.dropWhile_cons_of_neg ha]; exact List.cons_ne_nil _ _

theorem specLtrim_eq (line : Str) :
    specLtrim line = line.dropWhile (fun c => [' ', '\t'].contains c) := by
  unfold specLtrim
  congr 1
  funext c
  by_cases h1 : c = ' '
  · subst h1; decide
  · by_cases h2 : c = '\t'
    · subst h2; decide
    · have e1 : (c == ' ') = false := by simpa using h1
      have e2 : (c == '\t') = false := by simpa using h2
      simp [List.contains, List.elem, e1, e2, h1, h2]

theorem ltrim_spec (line : Str) :
    ltrim line = if specLtrim line = [] then line else specLtrim line := by
  rw [specLtrim_eq]
  unfold ltrim
  rcases find_first_not_of_spec [' ', '\t'] line with ⟨h1, h2⟩ | ⟨i, h1, h2, h3⟩
  · rw [h1, h2]; rfl
  · rw [h1, if_neg h3]; exact h2

theorem specLtrim_blank (line : Str) (h : specLtrim line = []) :
    ∀ c ∈ line, c = ' ' ∨ c = '\t' := by
  intro c hc
  unfold specLtrim at h
  rw [List.dropWhile_eq_nil_iff] at h
  simpa using h c hc

theorem ltrim_head (line : Str) (b : Char) (hb : b ≠ ' ' ∧ b ≠ '\t') :
    (ltrim line).head? = some b ↔ (specLtrim line).head? = some b := by
  rw [ltrim_spec]
  by_cases h : specLtrim line = []
  · rw [if_pos h, h]
    cases line with
    | nil => rfl
    | cons a t =>
      have := specLtrim_blank (a :: t) h a (List.mem_cons_self _ _)
      simp only [List.head?_cons, Option.some.injEq, List.head?_nil]
      constructor
      · intro e
        rw [e] at this
        rcases this with h1 | h1
        · exact absurd h1 hb.1
        · exact absurd h1 hb.2
      · intro e; cases e
  · rw [if_neg h]

theorem ltrim_mem (line : Str) (b : Char) (hb : b ≠ ' ' ∧ b ≠ '\t') :
    b ∈ ltrim line ↔ b ∈ specLtrim line := by
  rw [ltrim_spec]
  by_cases h : specLtrim line = []
  · rw [if_pos h, h]
    constructor
    · intro hm
      rcases specLtrim_blank line h b hm with h1 | h1
      · exact absurd h1 hb.1
      · exact absurd h1 hb.2
    · intro hm; simp at hm
  · rw [if_neg h]

theorem ltrim_of_mem (line : Str) (b : Char) (hm : b ∈ specLtrim line) :
    ltrim line = specLtrim line := by
  rw [ltrim_spec, if_neg (fun h => by rw [h] at hm; simp at hm)]

theorem specLtrim_mem (line : Str) (b : Char) (hb : b ≠ ' ' ∧ b ≠ '\t') :
    b ∈ specLtrim line ↔ b ∈ line := by
  unfold specLtrim
  constructor
  · intro h
    exact (List.dropWhile_sublist _).subset h
  · intro h
    have hs := List.takeWhile_append_dropWhile (fun c => c = ' ' || c = '\t') line
    rw [← hs, List.mem_append] at h
    rcases h with h | h
    · have := List.mem_takeWhile_imp h
      simp only [Bool.or_eq_true, decide_eq_true_eq] at this
      rcases this with h1 | h1
      · exact absurd h1 hb.1
      · exact absurd h1 hb.2
    · exact h

theorem find_char_spec (c : Char) : ∀ s : Str,
    find s [c] = if c ∈ s then some (s.takeWhile (fun x => decide (x ≠ c))).length else none := by
  intro s
  induction s with
  | nil => simp [find]
  | cons a t ih =>
    unfold find
    by_cases h : c = a
    · subst h
      simp [List.isPrefixOf]
    · have h2 : ¬ a = c := fun e => h e.symm
      simp only [List.isPrefixOf, beq_iff_eq, h, Bool.and_true, Bool.false_eq_true, if_false, ih,
        List.mem_cons, false_or]
      by_cases hm : c ∈ t
      · simp [hm, h2]
      · simp [hm]

theorem take_length_takeWhile (q : Char → Bool) : ∀ s : Str,
    s.take (s.takeWhile q).length = s.takeWhile q := by
  intro s
  induction s with
  | nil => rfl
  | cons a t ih =>
    by_cases h : q a = true
    · rw [List.takeWhile_cons_of_pos h]
      simp [ih]
    · rw [List.takeWhile_cons_of_neg h]
      rfl

theorem drop_length_takeWhile (q : Char → Bool) : ∀ s : Str,
    s.drop (s.takeWhile q).length = s.dropWhile q := by
  intro s
  induction s with
  | nil => rfl
  | cons a t ih =>
    by_cases h : q a = true
    · rw [List.takeWhile_cons_of_pos h, List.dropWhile_cons_of_pos h]
      simp [ih]
    · rw [List.takeWhile_cons_of_neg h, List.dropWhile_cons_of_neg h]
      rfl

theorem parseLine_header (st : ParseState) (line rest : Str) (h : ltrim line = '[' :: rest) :
    parseLine st line =
      some ⟨if ']' ∈ rest then rest.takeWhile (fun x => decide (x ≠ ']')) else st.section_,
        st.settings⟩ := by
  unfold parseLine
  have hb : find ('[' :: rest) ['['] = some 0 := by
    rw [find_char_eq_zero_iff]; rfl
  simp only [h, hb, if_true, find_char_spec ']']
  have hm : (']' ∈ '[' :: rest) ↔ ']' ∈ rest := by simp
  by_cases hr : ']' ∈ rest
  · rw [if_pos (hm.mpr hr), if_pos hr]
    have ht : ('[' :: rest).takeWhile (fun x => decide (x ≠ ']')) =
        '[' :: rest.takeWhile (fun x => decide (x ≠ ']')) := by
      rw [List.takeWhile_cons_of_pos (by decide)]
    simp only [ht, List.length_cons, Nat.add_sub_cancel, substr, List.drop_succ_cons, List.drop_zero,
      take_length_takeWhile]
  · rw [if_neg (fun h2 => hr (hm.mp h2)), if_neg hr]

theorem parseLine_keyvalue (st : ParseState) (line : Str)
    (hhead : (ltrim line).head? ≠ some '[') (heq : '=' ∈ ltrim line) :
    parseLine st line =
      some ⟨st.section_,
        if st.section_ = "files".toList ∧
            (ltrim line).takeWhile (fun x => decide (x ≠ '=')) = "suffixes".toList then
          ⟨st.settings.m_suffixes ++
            (extractedWords (((ltrim line).dropWhile (fun x => decide (x ≠ '='))).drop 1)).map
              tolowercase⟩
        else st.settings⟩ := by
  unfold parseLine
  have hb : ¬ find (ltrim line) ['['] = some 0 := by
    rw [find_char_eq_zero_iff]; exact hhead
  simp only [if_neg hb, find_char_spec '=', if_pos heq, process_spec, substr, substrFrom,
    List.drop_zero, take_length_takeWhile, Option.map_some']
  have hd : (ltrim line).drop (((ltrim line).takeWhile (fun x => decide (x ≠ '='))).length + 1) =
      ((ltrim line).dropWhile (fun x => decide (x ≠ '='))).drop 1 := by
    rw [← drop_length_takeWhile, List.drop_drop, Nat.add_comm]
  rw [hd]

theorem parseLine_other (st : ParseState) (line : Str)
    (hhead : (ltrim line).head? ≠ some '[') (heq : '=' ∉ ltrim line) :
    parseLine st line = some st := by
  unfold parseLine
  have hb : ¬ find (ltrim line) ['['] = some 0 := by
    rw [find_char_eq_zero_iff]; exact hhead
  simp only [if_neg hb, find_char_spec '=', if_neg heq]

theorem extractedWords_ne_nil (value : Str) : extractedWords value ≠ [] := by
  unfold extractedWords
  by_cases h : endsOpen value = true
  · simp [h]
  · have h2 : endsOpen value = false := by simpa using h
    rw [h2]
    simp only [Bool.false_eq_true, if_false, List.append_nil]
    intro hs
    have hv : value ≠ [] := by
      intro e; rw [e] at h2; simp [endsOpen] at h2
    have hd : value.dropWhile isspace = [] := by
      cases hdw : value.dropWhile isspace with
      | nil => rfl
      | cons c rest =>
        exfalso
        rcases extractWord_cases value with ⟨w, h1, h3⟩ | ⟨w, r, h1, _, h3⟩
        · simp only [extractedWords, hs, h2, List.nil_append, Bool.false_eq_true, if_false] at h3
          exact absurd h3 (by simp)
        · simp only [extractedWords, hs, h2, List.nil_append, Bool.false_eq_true, if_false] at h3
          exact absurd h3 (by simp)
    rw [endsOpen_spaces value hd] at h2
    exact absurd h2 (by decide)

/-! ## Lemmas: the streams of a walk -/

theorem forEach_cons_some (f : Str → Option Output) (p : Str) (ps : List Str) (o : Output)
    (h : forEach f (p :: ps) = some o) :
    ∃ o1 o2, f p = some o1 ∧ forEach f ps = some o2 ∧ o = Output.append o1 o2 := by
  unfold forEach at h
  cases h1 : f p with
  | none => rw [h1] at h; simp at h
  | some o1 =>
    rw [h1] at h
    simp only [Option.map_eq_some'] at h
    obtain ⟨o2, h2, h3⟩ := h
    exact ⟨o1, o2, rfl, h2, h3.symm⟩

theorem forEach_preserves (f : Str → Option Output) (Q : Output → Prop) (hempty : Q Output.empty)
    (happend : ∀ a b, Q a → Q b → Q (Output.append a b)) : ∀ (l : List Str) (o : Output),
    (∀ p ∈ l, ∀ oi, f p = some oi → Q oi) → forEach f l = some o → Q o := by
  intro l
  induction l with
  | nil =>
    intro o _ h
    simp only [forEach, Option.some.injEq] at h
    rw [← h]; exact hempty
  | cons p ps ih =>
    intro o hq h
    obtain ⟨o1, o2, h1, h2, rfl⟩ := forEach_cons_some f p ps o h
    exact happend o1 o2 (hq p (List.mem_cons_self _ _) o1 h1)
      (ih o2 (fun q hq2 => hq q (List.mem_cons_of_mem _ hq2)) h2)

theorem search_streams (fs : FileSystem) (settings : Settings) (pattern : Str) (fuel : Nat) :
    ∀ (path : Str) (level : Nat) (o : Output),
      search fs settings pattern fuel path level = some o →
        o.out = o.opened.flatMap (fun p => (fileOutput p pattern (fs p).opened).out) ∧
        o.err = o.opened.flatMap (fun p => (fileOutput p pattern (fs p).opened).err) := by
  induction fuel with
  | zero => intro path level o h; simp [search] at h
  | succ fuel ih =>
    intro path level o h
    by_cases hdir : (fs path).is_directory = true
    · rw [search_dir fs settings pattern path fuel level hdir] at h
      refine forEach_preserves _
        (fun o => o.out = o.opened.flatMap (fun p => (fileOutput p pattern (fs p).opened).out) ∧
          o.err = o.opened.flatMap (fun p => (fileOutput p pattern (fs p).opened).err))
        ?_ ?_ _ o (fun p _ oi hoi => ih p (level + 1) oi hoi) h
      · simp [Output.empty]
      · intro a b ha hb
        simp only [Output.append, List.flatMap_append, ← ha.1, ← ha.2, ← hb.1, ← hb.2, and_self]
    · have hdir2 : (fs path).is_directory = false := by simpa using hdir
      rw [search_nondir fs settings pattern path fuel level hdir2] at h
      have hfile : ∀ o : Output, o = fileOutput path pattern (fs path).opened →
          o.out = o.opened.flatMap (fun p => (fileOutput p pattern (fs p).opened).out) ∧
          o.err = o.opened.flatMap (fun p => (fileOutput p pattern (fs p).opened).err) := by
        intro o ho
        rw [ho, fileOutput_opened]
        simp
      have hemp : ∀ o : Output, o = Output.empty →
          o.out = o.opened.flatMap (fun p => (fileOutput p pattern (fs p).opened).out) ∧
          o.err = o.opened.flatMap (fun p => (fileOutput p pattern (fs p).opened).err) := by
        intro o ho
        rw [ho]
        simp [Output.empty]
      split at h
      · split at h
        · exact hemp o (Option.some.inj h).symm
        · exact hfile o (Option.some.inj h).symm
      · exact hemp o (Option.some.inj h).symm

theorem forEach_opened_congr (f g : Str → Option Output) : ∀ l : List Str,
    (∀ p ∈ l, (f p).map (fun o => o.opened) = (g p).map (fun o => o.opened)) →
      (forEach f l).map (fun o => o.opened) = (forEach g l).map (fun o => o.opened) := by
  intro l
  induction l with
  | nil => intro _; rfl
  | cons p ps ih =>
    intro h
    have h1 := h p (List.mem_cons_self _ _)
    have h2 := ih (fun q hq => h q (List.mem_cons_of_mem _ hq))
    cases hf : f p with
    | none =>
      cases hg : g p with
      | none => simp [forEach, hf, hg]
      | some b => rw [hf, hg] at h1; simp at h1
    | some a =>
      cases hg : g p with
      | none => rw [hf, hg] at h1; simp at h1
      | some b =>
        rw [hf, hg] at h1
        simp only [Option.map_some', Option.some.injEq] at h1
        simp only [forEach, hf, hg]
        cases hf2 : forEach f ps with
        | none =>
          cases hg2 : forEach g ps with
          | none => rfl
          | some d => rw [hf2, hg2] at h2; simp at h2
        | some c =>
          cases hg2 : forEach g ps with
          | none => rw [hf2, hg2] at h2; simp at h2
          | some d =>
            rw [hf2, hg2] at h2
            simp only [Option.map_some', Option.some.injEq] at h2
            simp [Output.append, h1, h2]

theorem search_opened_indep (fs fs2 : FileSystem) (settings : Settings) (pattern : Str)
    (hsame : ∀ p, (fs2 p).is_directory = (fs p).is_directory ∧
      (fs2 p).is_regular_file = (fs p).is_regular_file ∧ (fs2 p).names = (fs p).names)
    (fuel : Nat) : ∀ (path : Str) (level : Nat),
      (search fs2 settings pattern fuel path level).map (fun o => o.opened) =
        (search fs settings pattern fuel path level).map (fun o => o.opened) := by
  induction fuel with
  | zero => intro path level; rfl
  | succ fuel ih =>
    intro path level
    obtain ⟨h1, h2, h3⟩ := hsame path
    by_cases hdir : (fs path).is_directory = true
    · rw [search_dir fs settings pattern path fuel level hdir,
        search_dir fs2 settings pattern path fuel level (h1.trans hdir), h3]
      exact forEach_opened_congr _ _ _ (fun p _ => ih p (level + 1))
    · have hdir2 : (fs path).is_directory = false := by simpa using hdir
      rw [search_nondir fs settings pattern path fuel level hdir2,
        search_nondir fs2 settings pattern path fuel level (h1.trans hdir2), h2]
      split
      · split
        · rfl
        · simp [fileOutput_opened]
      · rfl

/-! ## Lemmas: the records of the proper lines -/

theorem matchRecords_cons (path pattern : Str) (n : Nat) (l : Str) (ls : List Str) :
    matchRecords path pattern n (l :: ls) =
      if pattern <:+: l then record path (n + 1) l :: matchRecords path pattern (n + 1) ls
      else matchRecords path pattern (n + 1) ls := by
  rw [matchRecords]

theorem matchRecords_append (path pattern : Str) : ∀ (a b : List Str) (n : Nat),
    matchRecords path pattern n (a ++ b) =
      matchRecords path pattern n a ++ matchRecords path pattern (n + a.length) b := by
  intro a
  induction a with
  | nil => intro b n; simp [matchRecords]
  | cons l ls ih =>
    intro b n
    have e : n + 1 + ls.length = n + (ls.length + 1) := by omega
    rw [List.cons_append, matchRecords_cons, matchRecords_cons, ih, List.length_cons, e]
    split <;> rfl

theorem matchRecords_properLines (path pattern content : Str) (hp : pattern ≠ []) (n : Nat) :
    matchRecords path pattern n (textLines content) =
      matchRecords path pattern n (properLines content) := by
  unfold properLines
  by_cases h : (textLines content).getLast? = some []
  · rw [if_pos h]
    have e := List.dropLast_append_getLast? [] (by rw [h]; exact rfl)
    conv_lhs => rw [← e]
    rw [matchRecords_append]
    have hno : ¬ pattern <:+: ([] : Str) := by
      intro hi
      exact hp (List.eq_nil_of_infix_nil hi)
    simp [matchRecords, hno]
  · rw [if_neg h]

theorem matchRecords_enum (path pattern : Str) : ∀ (ls : List Str) (n : Nat),
    matchRecords path pattern n ls =
      ((ls.enumFrom (n + 1)).filter (fun x => decide (pattern <:+: x.2))).map
        (fun x => record path x.1 x.2) := by
  intro ls
  induction ls with
  | nil => intro n; rfl
  | cons l ls ih =>
    intro n
    simp only [matchRecords, List.enumFrom_cons, List.filter_cons, ih]
    by_cases h : pattern <:+: l
    · simp [h]
    · simp [h]

/-! ## Lemmas: the order of the visit -/

theorem pathNames_name (n : Str) (hn : validName n = true) : pathNames n = [n] := by
  have hne := ((validName_iff n).mp hn).1
  unfold pathNames splitSlash
  rw [splitWhen_no_sep _ n (validName_no_sep n hn)]
  simp [hne]

theorem pathNames_child (x n : Str) (hn : validName n = true) :
    pathNames (x ++ '/' :: n) = pathNames x ++ [n] := by
  have hne := ((validName_iff n).mp hn).1
  unfold pathNames splitSlash
  rw [splitWhen_append_sep _ '/' (by simp), splitWhen_no_sep _ n (validName_no_sep n hn)]
  simp [hne]

theorem pathNames_slash (x : Str) : pathNames (x ++ ['/']) = pathNames x := by
  unfold pathNames splitSlash
  rw [splitWhen_append_sep _ '/' (by simp)]
  simp [splitWhen]

theorem pathNames_pathAppend (d n : Str) (hn : validName n = true) :
    pathNames (pathAppend d n) = pathNames d ++ [n] := by
  unfold pathAppend
  rw [validName_no_root n hn]
  simp only [Bool.false_eq_true, if_false]
  by_cases hf : has_filename d = true
  · rw [if_pos hf]
    exact pathNames_child d n hn
  · rw [if_neg hf]
    by_cases hd : d = []
    · subst hd
      rw [List.nil_append, pathNames_name n hn]
      rfl
    · have hl : d.getLast? = some '/' := by
        simp only [has_filename, Bool.and_eq_true, decide_eq_true_eq, not_and, not_not] at hf
        exact hf hd
      obtain ⟨x, hx⟩ := List.getLast?_eq_some_iff.mp hl
      rw [hx, pathNames_slash]
      have e : x ++ ['/'] ++ n = x ++ '/' :: n := by simp
      rw [e]
      exact pathNames_child x n hn

theorem relElements_pathAppend (d n : Str) (hn : validName n = true) :
    relElements (pathAppend d n) = pathNames d ++ [n] := by
  rw [← pathNames_pathAppend d n hn]
  rcases pathAppend_form d with h | ⟨x, h⟩
  · rw [h n hn, relElements_name n hn, pathNames_name n hn]
  · rw [h n hn, relElements_child x n hn, pathNames_child x n hn]
    rfl

theorem has_root_pathAppend (d n : Str) (hn : validName n = true) :
    has_root_directory (pathAppend d n) = has_root_directory d := by
  unfold pathAppend
  rw [validName_no_root n hn]
  simp only [Bool.false_eq_true, if_false]
  cases d with
  | nil =>
    have : has_filename [] = false := by decide
    rw [this, List.nil_append]
    simp only [Bool.false_eq_true, if_false]
    exact validName_no_root n hn
  | cons a t =>
    split <;> simp [has_root_directory]

theorem pathNames_foldl : ∀ (names : List Str) (q : Str),
    (∀ n ∈ names, validName n = true) →
      pathNames (names.foldl pathAppend q) = pathNames q ++ names := by
  intro names
  induction names with
  | nil => intro q _; simp
  | cons n ns ih =>
    intro q hv
    rw [List.foldl_cons, ih _ (fun m hm => hv m (List.mem_cons_of_mem _ hm)),
      pathNames_pathAppend q n (hv n (List.mem_cons_self _ _))]
    simp

theorem has_root_foldl : ∀ (names : List Str) (q : Str),
    (∀ n ∈ names, validName n = true) →
      has_root_directory (names.foldl pathAppend q) = has_root_directory q := by
  intro names
  induction names with
  | nil => intro q _; rfl
  | cons n ns ih =>
    intro q hv
    rw [List.foldl_cons, ih _ (fun m hm => hv m (List.mem_cons_of_mem _ hm)),
      has_root_pathAppend q n (hv n (List.mem_cons_self _ _))]

theorem relElements_foldl (names : List Str) (q : Str)
    (hv : ∀ n ∈ names, validName n = true) (hne : names ≠ []) :
    relElements (names.foldl pathAppend q) = pathNames q ++ names := by
  rcases List.eq_nil_or_concat names with h | ⟨L, b, h⟩
  · exact absurd h hne
  · rw [List.concat_eq_append] at h
    subst h
    have hL : ∀ n ∈ L, validName n = true := fun n hn => hv n (List.mem_append_left _ hn)
    have hb : validName b = true := hv b (List.mem_append_right _ (List.mem_singleton_self b))
    rw [List.foldl_append, List.foldl_cons, List.foldl_nil, relElements_pathAppend _ b hb,
      pathNames_foldl L q hL, List.append_assoc]

theorem elemsLt_diverge (a b : Str) (as bs : List Str) (h : strLt a b = true) :
    ∀ pre : List Str, elemsLt (pre ++ a :: as) (pre ++ b :: bs) = true := by
  intro pre
  induction pre with
  | nil => simp [elemsLt, h]
  | cons p pre ih => simp [elemsLt, ih]

theorem pathLt_descendants (q n1 n2 : Str) (ns1 ns2 : List Str)
    (h1 : validName n1 = true) (h2 : validName n2 = true)
    (hv1 : ∀ n ∈ ns1, validName n = true) (hv2 : ∀ n ∈ ns2, validName n = true)
    (hlt : strLt n1 n2 = true) :
    pathLt (ns1.foldl pathAppend (pathAppend q n1)) (ns2.foldl pathAppend (pathAppend q n2)) = true ∧
      elemsLt (pathNames (ns1.foldl pathAppend (pathAppend q n1)))
        (pathNames (ns2.foldl pathAppend (pathAppend q n2))) = true := by
  have ha : ∀ n ∈ n1 :: ns1, validName n = true := by
    intro n hn
    rw [List.mem_cons] at hn
    rcases hn with hn | hn
    · rw [hn]; exact h1
    · exact hv1 n hn
  have hb : ∀ n ∈ n2 :: ns2, validName n = true := by
    intro n hn
    rw [List.mem_cons] at hn
    rcases hn with hn | hn
    · rw [hn]; exact h2
    · exact hv2 n hn
  have e1 : ns1.foldl pathAppend (pathAppend q n1) = (n1 :: ns1).foldl pathAppend q := rfl
  have e2 : ns2.foldl pathAppend (pathAppend q n2) = (n2 :: ns2).foldl pathAppend q := rfl
  rw [e1, e2]
  constructor
  · unfold pathLt
    rw [has_root_foldl _ q ha, has_root_foldl _ q hb, if_pos rfl,
      relElements_foldl _ q ha (List.cons_ne_nil _ _),
      relElements_foldl _ q hb (List.cons_ne_nil _ _)]
    exact elemsLt_diverge n1 n2 ns1 ns2 hlt _
  · rw [pathNames_foldl _ q ha, pathNames_foldl _ q hb]
    exact elemsLt_diverge n1 n2 ns1 ns2 hlt _

theorem sortNames_strict (names : List Str) (hnd : names.Nodup) :
    (List.insertionSort (fun a b => strLt b a = false) names).Pairwise
      (fun a b => strLt a b = true) := by
  haveI : IsTotal Str (fun a b => strLt b a = false) := ⟨fun a b => strLe_total a b⟩
  haveI : IsTrans Str (fun a b => strLt b a = false) := ⟨fun a b c => strLe_trans a b c⟩
  have hs : (List.insertionSort (fun a b => strLt b a = false) names).Pairwise
      (fun a b => strLt b a = false) := List.sorted_insertionSort _ names
  have hn : (List.insertionSort (fun a b => strLt b a = false) names).Pairwise (fun a b => a ≠ b) :=
    (List.perm_insertionSort _ names).nodup_iff.mpr hnd
  refine (hs.and hn).imp ?_
  intro a b hab
  by_contra hc
  exact hab.2 (strLe_antisymm a b hab.1 (by simpa using hc))

theorem forEach_opened_pairwise (f : Str → Option Output) (R D : Str → Str → Prop) :
    ∀ (l : List Str) (o : Output),
      (∀ p ∈ l, ∀ oi, f p = some oi → oi.opened.Pairwise R ∧ ∀ x ∈ oi.opened, D p x) →
      l.Pairwise (fun c1 c2 => ∀ x y, D c1 x → D c2 y → R x y) →
      forEach f l = some o →
      o.opened.Pairwise R ∧ ∀ x ∈ o.opened, ∃ p ∈ l, D p x := by
  intro l
  induction l with
  | nil =>
    intro o _ _ h
    simp only [forEach, Option.some.injEq] at h
    rw [← h]
    simp [Output.empty]
  | cons p ps ih =>
    intro o hq hpw h
    obtain ⟨o1, o2, h1, h2, rfl⟩ := forEach_cons_some f p ps o h
    rw [List.pairwise_cons] at hpw
    obtain ⟨hp1, hp2⟩ := hq p (List.mem_cons_self _ _) o1 h1
    obtain ⟨hr1, hr2⟩ := ih o2 (fun q hq2 => hq q (List.mem_cons_of_mem _ hq2)) hpw.2 h2
    constructor
    · show (o1.opened ++ o2.opened).Pairwise R
      rw [List.pairwise_append]
      refine ⟨hp1, hr1, ?_⟩
      intro a ha b hb
      obtain ⟨c, hc, hd⟩ := hr2 b hb
      exact hpw.1 c hc a b (hp2 a ha) hd
    · intro x hx
      have hx2 : x ∈ o1.opened ++ o2.opened := hx
      rw [List.mem_append] at hx2
      rcases hx2 with hx2 | hx2
      · exact ⟨p, List.mem_cons_self _ _, hp2 x hx2⟩
      · obtain ⟨c, hc, hd⟩ := hr2 x hx2
        exact ⟨c, List.mem_cons_of_mem _ hc, hd⟩

theorem search_opened_sorted (fs : FileSystem) (settings : Settings) (pattern : Str)
    (hnames : ∀ p, (fs p).is_directory = true →
      (fs p).names.Nodup ∧ ∀ n ∈ (fs p).names, validName n = true)
    (fuel : Nat) : ∀ (path : Str) (level : Nat) (o : Output),
      search fs settings pattern fuel path level = some o →
        o.opened.Pairwise (fun a b => pathLt a b = true ∧
          elemsLt (pathNames a) (pathNames b) = true) ∧
        ∀ x ∈ o.opened, ∃ names : List Str,
          (∀ n ∈ names, validName n = true) ∧ x = names.foldl pathAppend path := by
  induction fuel with
  | zero => intro path level o h; simp [search] at h
  | succ fuel ih =>
    intro path level o h
    by_cases hdir : (fs path).is_directory = true
    · obtain ⟨hnd, hv⟩ := hnames path hdir
      rw [search_dir fs settings pattern path fuel level hdir, sortPaths_children path _ hv] at h
      have hmem : ∀ n ∈ List.insertionSort (fun a b => strLt b a = false) (fs path).names,
          validName n = true := fun n hn => hv n ((List.mem_insertionSort _).mp hn)
      have hpw := forEach_opened_pairwise
        (fun f => search fs settings pattern fuel f (level + 1))
        (fun a b => pathLt a b = true ∧ elemsLt (pathNames a) (pathNames b) = true)
        (fun c x => ∃ names : List Str,
          (∀ n ∈ names, validName n = true) ∧ x = names.foldl pathAppend c)
        _ o (fun p _ oi hoi => ih p (level + 1) oi hoi) ?_ h
      · refine ⟨hpw.1, ?_⟩
        intro x hx
        obtain ⟨c, hc, names, hvn, hxe⟩ := hpw.2 x hx
        obtain ⟨n, hn, rfl⟩ := List.mem_map.mp hc
        refine ⟨n :: names, ?_, hxe⟩
        intro m hm
        rw [List.mem_cons] at hm
        rcases hm with hm | hm
        · rw [hm]; exact hmem n hn
        · exact hvn m hm
      · rw [List.pairwise_map]
        refine List.Pairwise.imp_of_mem ?_ (sortNames_strict _ hnd)
        intro n1 n2 hn1 hn2 hlt x y hx hy
        obtain ⟨ns1, hv1, rfl⟩ := hx
        obtain ⟨ns2, hv2, rfl⟩ := hy
        exact pathLt_descendants path n1 n2 ns1 ns2 (hmem n1 hn1) (hmem n2 hn2) hv1 hv2 hlt
    · have hdir2 : (fs path).is_directory = false := by simpa using hdir
      rw [search_nondir fs settings pattern path fuel level hdir2] at h
      have hcases : o.opened = [] ∨ o.opened = [path] := by
        split at h
        · split at h
          · left; rw [← Option.some.inj h]; rfl
          · right; rw [← Option.some.inj h]; exact fileOutput_opened _ _ _
        · left; rw [← Option.some.inj h]; rfl
      rcases hcases with hc | hc
      · rw [hc]; simp
      · rw [hc]
        refine ⟨List.pairwise_singleton _ _, ?_⟩
        intro x hx
        rw [List.mem_singleton] at hx
        exact ⟨[], by simp, by rw [hx]; rfl⟩

/-! ## The claims, continued -/

/-- Claim C11: open errors do not stop the walk.  On a tree of bounded depth
`search` returns; its standard output is the concatenation, over the paths it
opened in visit order, of the match records of those that opened, and its
error stream holds one line `description: path` for each of those that failed
to open and nothing else.  A file system with the same tree but other open
results is visited in the same order, its output being put together from the
same visit list, so a failed open leaves the records of the other files
alone.  A path at a level above 0 that is neither a directory nor a regular
file writes nothing. -/
theorem open_errors_do_not_stop_walk (fs : FileSystem) (settings : Settings) (pattern : Str)
    (depth : Nat) (path : Str) (level : Nat) (hwalk : walkWithin fs depth path = true) :
    ∃ o, search fs settings pattern depth path level = some o ∧
      o.out = o.opened.flatMap (fun p =>
        match (fs p).opened with
        | .ok content => matchRecords p pattern 0 (textLines content)
        | .error _ => []) ∧
      o.err = o.opened.flatMap (fun p =>
        match (fs p).opened with
        | .ok _ => []
        | .error e => [e ++ [':', ' '] ++ p]) ∧
      (∀ fs2 : FileSystem,
        (∀ p, (fs2 p).is_directory = (fs p).is_directory ∧
          (fs2 p).is_regular_file = (fs p).is_regular_file ∧ (fs2 p).names = (fs p).names) →
        ∃ o2, search fs2 settings pattern depth path level = some o2 ∧
          o2.opened = o.opened ∧
          o2.out = o.opened.flatMap (fun p =>
            match (fs2 p).opened with
            | .ok content => matchRecords p pattern 0 (textLines content)
            | .error _ => [])) ∧
      (0 < level → (fs path).is_directory = false → (fs path).is_regular_file = false →
        o = Output.empty) := by
  have hout : ∀ (g : FileSystem), (fun p => (fileOutput p pattern (g p).opened).out) =
      (fun p =>
        match (g p).opened with
        | .ok content => matchRecords p pattern 0 (textLines content)
        | .error _ => []) := by
    intro g
    funext p
    cases (g p).opened <;> rfl
  have herr : (fun p => (fileOutput p pattern (fs p).opened).err) =
      (fun p =>
        match (fs p).opened with
        | .ok _ => []
        | .error e => [e ++ [':', ' '] ++ p]) := by
    funext p
    cases (fs p).opened <;> simp [fileOutput]
  obtain ⟨o, ho⟩ := search_total fs settings pattern depth path level hwalk
  have hs := search_streams fs settings pattern depth path level o ho
  rw [hout fs, herr] at hs
  refine ⟨o, ho, hs.1, hs.2, ?_, ?_⟩
  · intro fs2 hsame
    have hi := search_opened_indep fs fs2 settings pattern hsame depth path level
    rw [ho] at hi
    simp only [Option.map_some', Option.map_eq_some'] at hi
    obtain ⟨o2, ho2, hop⟩ := hi
    have hs2 := search_streams fs2 settings pattern depth path level o2 ho2
    rw [hout fs2, hop] at hs2
    exact ⟨o2, ho2, hop, hs2.1⟩
  · intro hlevel hdir hreg
    obtain ⟨d, rfl⟩ : ∃ d, depth = d + 1 := by
      cases depth with
      | zero => simp [walkWithin] at hwalk
      | succ d => exact ⟨d, rfl⟩
    rw [search_nondir fs settings pattern path d level hdir] at ho
    have h0 : level ≠ 0 := by omega
    simp only [h0, hreg, Bool.false_eq_true, or_self, if_false, Option.some.injEq] at ho
    exact ho.symm

/-- The claim C11 on an example tree: `d/a/x.txt` fails to open, the socket
`d/a/s.txt` is passed over, and `d/a.txt`, visited afterwards, gives its
records, the same as in the tree in which `d/a/x.txt` can be read. -/
theorem open_errors_do_not_stop_walk_witness :
    walkWithin exampleFs3 3 "d".toList = true ∧
    (∃ o, search exampleFs3 txtLog "o".toList 3 "d".toList 0 = some o ∧
      o.out = o.opened.flatMap (fun p =>
        match (exampleFs3 p).opened with
        | .ok content => matchRecords p "o".toList 0 (textLines content)
        | .error _ => []) ∧
      o.err = o.opened.flatMap (fun p =>
        match (exampleFs3 p).opened with
        | .ok _ => []
        | .error e => [e ++ [':', ' '] ++ p]) ∧
      (∀ fs2 : FileSystem,
        (∀ p, (fs2 p).is_directory = (exampleFs3 p).is_directory ∧
          (fs2 p).is_regular_file = (exampleFs3 p).is_regular_file ∧
          (fs2 p).names = (exampleFs3 p).names) →
        ∃ o2, search fs2 txtLog "o".toList 3 "d".toList 0 = some o2 ∧
          o2.opened = o.opened ∧
          o2.out = o.opened.flatMap (fun p =>
            match (fs2 p).opened with
            | .ok content => matchRecords p "o".toList 0 (textLines content)
            | .error _ => [])) ∧
      (0 < 0 → (exampleFs3 "d".toList).is_directory = false →
        (exampleFs3 "d".toList).is_regular_file = false → o = Output.empty)) ∧
    search exampleFs3 txtLog "o".toList 3 "d".toList 0 =
      some ⟨["d/a.txt:1: one".toList, "d/a.txt:2: two".toList],
        ["Permission denied: d/a/x.txt".toList], ["d/a/x.txt".toList, "d/a.txt".toList]⟩ ∧
    search exampleFs4 txtLog "o".toList 3 "d".toList 0 =
      some ⟨["d/a/x.txt:1: zero".toList, "d/a.txt:1: one".toList, "d/a.txt:2: two".toList],
        [], ["d/a/x.txt".toList, "d/a.txt".toList]⟩ :=
  ⟨by decide,
    open_errors_do_not_stop_walk exampleFs3 txtLog "o".toList 3 "d".toList 0 (by decide),
    by decide, by decide⟩

/-- Claim C12: unrecognised configuration content is ignored.  A line whose
left-trimmed form does not start with `[` and that has no `=`, or whose key
(the left-trimmed text before the first `=`) is not `suffixes`, or that is
read while the current section is not `files`, can be removed from any list of
configuration lines without changing the settings that are loaded. -/
theorem unrecognised_lines_ignored (l1 l2 : List Str) (line : Str) (st1 : ParseState)
    (h1 : parseLines ⟨[], ⟨[]⟩⟩ l1 = some st1)
    (hhead : (specLtrim line).head? ≠ some '[')
    (h : '=' ∉ specLtrim line ∨
      (specLtrim line).takeWhile (fun x => decide (x ≠ '=')) ≠ "suffixes".toList ∨
      st1.section_ ≠ "files".toList) :
    parseSettings (l1 ++ line :: l2) = parseSettings (l1 ++ l2) ∧
    ∃ m, parseSettings (l1 ++ l2) = some m := by
  have hh : (ltrim line).head? ≠ some '[' :=
    fun e => hhead ((ltrim_head line '[' (by decide)).mp e)
  have hline : parseLine st1 line = some st1 := by
    by_cases heq : '=' ∈ specLtrim line
    · have hl := ltrim_of_mem line '=' heq
      rw [parseLine_keyvalue st1 line hh (by rw [hl]; exact heq), hl]
      have hc : ¬ (st1.section_ = "files".toList ∧
          (specLtrim line).takeWhile (fun x => decide (x ≠ '=')) = "suffixes".toList) := by
        rintro ⟨hc1, hc2⟩
        rcases h with h | h | h
        · exact h heq
        · exact h hc2
        · exact h hc1
      rw [if_neg hc]
    · exact parseLine_other st1 line hh
        (fun e => heq ((ltrim_mem line '=' (by decide)).mp e))
  refine ⟨?_, parseSettings_total _⟩
  unfold parseSettings
  rw [parseLines_append l1 _ _ st1 h1, parseLines_append l1 _ _ st1 h1]
  simp only [parseLines, hline]

/-- The claim C12 at a comment line, at an unknown key in section `files`, and
at a `suffixes` line in another section. -/
theorem unrecognised_lines_ignored_witness :
    (parseSettings (["[files]".toList] ++ "; suffixes only".toList :: ["suffixes=c".toList]) =
      parseSettings (["[files]".toList] ++ ["suffixes=c".toList])) ∧
    (parseSettings (["[files]".toList] ++ "colour=red".toList :: ["suffixes=c".toList]) =
      parseSettings (["[files]".toList] ++ ["suffixes=c".toList])) ∧
    (parseSettings (["[other]".toList] ++ "suffixes=md".toList :: ["[files]".toList]) =
      parseSettings (["[other]".toList] ++ ["[files]".toList])) ∧
    parseSettings (["[other]".toList] ++ "suffixes=md".toList :: ["[files]".toList]) =
      some ⟨[]⟩ :=
  ⟨(unrecognised_lines_ignored ["[files]".toList] ["suffixes=c".toList] "; suffixes only".toList
      ⟨"files".toList, ⟨[]⟩⟩ (by decide) (by decide) (Or.inl (by decide))).1,
    (unrecognised_lines_ignored ["[files]".toList] ["suffixes=c".toList] "colour=red".toList
      ⟨"files".toList, ⟨[]⟩⟩ (by decide) (by decide) (Or.inr (Or.inl (by decide)))).1,
    (unrecognised_lines_ignored ["[other]".toList] ["[files]".toList] "suffixes=md".toList
      ⟨"other".toList, ⟨[]⟩⟩ (by decide) (by decide) (Or.inr (Or.inr (by decide)))).1,
    by decide⟩

/-- Claim C13, as the code has it: with the empty pattern the loop reports a
line that the file does not have.  The file `a\n` has one line, and searching
it gives a second record, `f:2: `; the empty file has no line, and searching
it gives the record `f:1: `.  With a non-empty pattern the extra empty line
never matches. -/
theorem phantom_line_reported :
    properLines "a\n".toList = ["a".toList] ∧
    openAndSearch "f".toList [] (.ok "a\n".toList) =
      some ⟨["f:1: a".toList, "f:2: ".toList], [], ["f".toList]⟩ ∧
    properLines [] = [] ∧
    openAndSearch "f".toList [] (.ok []) = some ⟨["f:1: ".toList], [], ["f".toList]⟩ ∧
    openAndSearch "f".toList "a".toList (.ok "a\n".toList) =
      some ⟨["f:1: a".toList], [], ["f".toList]⟩ := by
  decide

/-- Claim C14, as the code has it: in section `files`, key `suffixes`, the loop
appends the lowercased whitespace-separated tokens of the value, and after
them one empty suffix when the value is empty or ends with whitespace.  The
value `txt ` (one trailing space) loads `txt` and the empty suffix, which
makes the empty extension valid although no empty token was written. -/
theorem empty_suffix_appended :
    (∀ (m : Settings) (value : Str),
      process m "files".toList "suffixes".toList value =
        some ⟨m.m_suffixes ++
          (specTokens value ++ if endsOpen value then [[]] else []).map tolowercase⟩) ∧
    specTokens "txt ".toList = ["txt".toList] ∧
    process ⟨[]⟩ "files".toList "suffixes".toList "txt ".toList = some ⟨["txt".toList, []]⟩ ∧
    parseSettings ["[files]".toList, "suffixes=txt ".toList] = some ⟨["txt".toList, []]⟩ ∧
    is_valid_suffix ⟨["txt".toList, []]⟩ [] = true ∧
    process ⟨[]⟩ "files".toList "suffixes".toList [] = some ⟨[[]]⟩ := by
  refine ⟨?_, by decide, by decide, by decide, by decide, by decide⟩
  intro m value
  have h := process_spec m "files".toList "suffixes".toList value
  rw [if_pos ⟨rfl, rfl⟩] at h
  exact h

/-- Claim C15: section headers.  For a line whose left-trimmed form starts
with `[`: when the line contains `]`, the current section becomes the text
between that `[` and the first `]`, whatever follows; when it contains no `]`,
the section stays as it was.  In both cases the settings are left alone: the
line is not read as a key and a value, even if it contains `=`. -/
theorem section_header (st : ParseState) (line rest : Str)
    (h : specLtrim line = '[' :: rest) :
    parseLine st line =
      some ⟨if ']' ∈ line then rest.takeWhile (fun x => decide (x ≠ ']')) else st.section_,
        st.settings⟩ := by
  have hm : '[' ∈ specLtrim line := by rw [h]; exact List.mem_cons_self _ _
  have hl : ltrim line = '[' :: rest := by rw [ltrim_of_mem line '[' hm, h]
  have hiff : (']' ∈ line) ↔ ']' ∈ rest := by
    rw [← specLtrim_mem line ']' (by decide), h]
    simp
  rw [parseLine_header st line rest hl]
  by_cases hr : ']' ∈ rest
  · rw [if_pos hr, if_pos (hiff.mpr hr)]
  · rw [if_neg hr, if_neg (fun e => hr (hiff.mp e))]

/-- The claim C15 at the line ` [files]=suffixes; x` read in section `old`
with the suffix `c` loaded, and at the line `[files` without closing
bracket. -/
theorem section_header_witness :
    specLtrim " [files]=suffixes; x".toList = '[' :: "files]=suffixes; x".toList ∧
    parseLine ⟨"old".toList, ⟨["c".toList]⟩⟩ " [files]=suffixes; x".toList =
      some ⟨"files".toList, ⟨["c".toList]⟩⟩ ∧
    parseLine ⟨"old".toList, ⟨["c".toList]⟩⟩ "[files".toList =
      some ⟨"old".toList, ⟨["c".toList]⟩⟩ :=
  ⟨by decide,
    (section_header ⟨"old".toList, ⟨["c".toList]⟩⟩ " [files]=suffixes; x".toList
      "files]=suffixes; x".toList (by decide)).trans (by decide),
    (section_header ⟨"old".toList, ⟨["c".toList]⟩⟩ "[files".toList "files".toList
      (by decide)).trans (by decide)⟩

/-- Claim C16: the split into key and value.  A line whose left-trimmed form
does not start with `[` and contains `=` is split at its first `=`: the key is
the left-trimmed text before it, not trimmed on the right, and the value is
everything after it, untrimmed.  The line is handed to `process` with that
key and value; it changes the suffix list exactly when the current section is
`files` and the key is `suffixes`, and never changes the section.  So
`  suffixes=txt` is recognised, `suffixes =txt` and `Suffixes=txt` are not. -/
theorem key_value_split (st : ParseState) (line : Str)
    (hhead : (specLtrim line).head? ≠ some '[') (heq : '=' ∈ specLtrim line) :
    specLtrim line = (specLtrim line).takeWhile (fun x => decide (x ≠ '=')) ++
      '=' :: ((specLtrim line).dropWhile (fun x => decide (x ≠ '='))).drop 1 ∧
    '=' ∉ (specLtrim line).takeWhile (fun x => decide (x ≠ '=')) ∧
    parseLine st line =
      (process st.settings st.section_ ((specLtrim line).takeWhile (fun x => decide (x ≠ '=')))
        (((specLtrim line).dropWhile (fun x => decide (x ≠ '='))).drop 1)).map
        (fun m => ⟨st.section_, m⟩) ∧
    (∃ st2, parseLine st line = some st2 ∧ st2.section_ = st.section_ ∧
      (st2.settings.m_suffixes ≠ st.settings.m_suffixes ↔
        (st.section_ = "files".toList ∧
          (specLtrim line).takeWhile (fun x => decide (x ≠ '=')) = "suffixes".toList))) ∧
    parseLine ⟨"files".toList, ⟨[]⟩⟩ "  suffixes=txt".toList =
      some ⟨"files".toList, ⟨["txt".toList]⟩⟩ ∧
    parseLine ⟨"files".toList, ⟨[]⟩⟩ "suffixes =txt".toList = some ⟨"files".toList, ⟨[]⟩⟩ ∧
    parseLine ⟨"files".toList, ⟨[]⟩⟩ "Suffixes=txt".toList = some ⟨"files".toList, ⟨[]⟩⟩ := by
  have hl := ltrim_of_mem line '=' heq
  have hh : (ltrim line).head? ≠ some '[' := by rw [hl]; exact hhead
  have hkv := parseLine_keyvalue st line hh (by rw [hl]; exact heq)
  rw [hl] at hkv
  have hnot : '=' ∉ (specLtrim line).takeWhile (fun x => decide (x ≠ '=')) := by
    intro hm
    have := List.mem_takeWhile_imp hm
    simp at this
  have hsplit := List.takeWhile_append_dropWhile (fun x => decide (x ≠ '=')) (specLtrim line)
  have hdrop : ∃ r, (specLtrim line).dropWhile (fun x => decide (x ≠ '=')) = '=' :: r := by
    cases hd : (specLtrim line).dropWhile (fun x => decide (x ≠ '=')) with
    | nil =>
      rw [hd, List.append_nil] at hsplit
      rw [hsplit] at hnot
      exact absurd heq hnot
    | cons c r =>
      have := dropWhile_head_false _ _ c r hd
      simp only [ne_eq, decide_not, Bool.not_eq_eq_eq_not, Bool.not_false,
        decide_eq_true_eq] at this
      exact ⟨r, by rw [this]⟩
  obtain ⟨r, hr⟩ := hdrop
  refine ⟨?_, hnot, ?_, ?_, by decide, by decide, by decide⟩
  · conv_lhs => rw [← hsplit]
    rw [hr]
    rfl
  · rw [hkv, process_spec]
    rfl
  · rw [hkv]
    refine ⟨_, rfl, rfl, ?_⟩
    by_cases hc : st.section_ = "files".toList ∧
        (specLtrim line).takeWhile (fun x => decide (x ≠ '=')) = "suffixes".toList
    · simp only [if_pos hc, hc, and_self, iff_true]
      intro he
      have h0 : (extractedWords (((specLtrim line).dropWhile
          (fun x => decide (x ≠ '='))).drop 1)).map tolowercase = [] :=
        List.append_right_eq_self.mp he
      exact extractedWords_ne_nil _ (List.map_eq_nil_iff.mp h0)
    · rw [if_neg hc]
      exact ⟨fun hne => absurd rfl hne, fun h2 => absurd h2 hc⟩

/-- The claim C16 at the line `  suffixes=a=b C` read in section `files`: the
key is `suffixes`, the value `a=b C`, and the suffixes `a=b` and `c` are
loaded. -/
theorem key_value_split_witness :
    (specLtrim "  suffixes=a=b C".toList).head? ≠ some '[' ∧
    '=' ∈ specLtrim "  suffixes=a=b C".toList ∧
    (specLtrim "  suffixes=a=b C".toList).takeWhile (fun x => decide (x ≠ '=')) =
      "suffixes".toList ∧
    ((specLtrim "  suffixes=a=b C".toList).dropWhile (fun x => decide (x ≠ '='))).drop 1 =
      "a=b C".toList ∧
    parseLine ⟨"files".toList, ⟨[]⟩⟩ "  suffixes=a=b C".toList =
      (process ⟨[]⟩ "files".toList
        ((specLtrim "  suffixes=a=b C".toList).takeWhile (fun x => decide (x ≠ '=')))
        (((specLtrim "  suffixes=a=b C".toList).dropWhile
          (fun x => decide (x ≠ '='))).drop 1)).map
        (fun m => ⟨"files".toList, m⟩) ∧
    parseLine ⟨"files".toList, ⟨[]⟩⟩ "  suffixes=a=b C".toList =
      some ⟨"files".toList, ⟨["a=b".toList, "c".toList]⟩⟩ :=
  ⟨by decide, by decide, by decide, by decide,
    (key_value_split ⟨"files".toList, ⟨[]⟩⟩ "  suffixes=a=b C".toList (by decide)
      (by decide)).2.2.1,
    by decide⟩

/-- Claim C17: the exact match list for a non-empty pattern.  For every file
content and every non-empty pattern, the records written for the file are, in
order, the records `path:i: line` of the lines that contain the pattern, `i`
being the 1-based number of the line among all the lines of the file (a final
newline ends the last line); no record is written twice. -/
theorem exact_match_list (path pattern content : Str) (hp : pattern ≠ []) :
    ∃ out, openAndSearch path pattern (.ok content) = some ⟨out, [], [path]⟩ ∧
      out = (((properLines content).enumFrom 1).filter
        (fun x => decide (pattern <:+: x.2))).map
          (fun x => path ++ [':'] ++ decimal x.1 ++ [':', ' '] ++ x.2) ∧
      out.Nodup := by
  refine ⟨matchRecords path pattern 0 (textLines content), ?_, ?_, ?_⟩
  · rw [openAndSearch_eq]; rfl
  · rw [matchRecords_properLines path pattern content hp 0, matchRecords_enum]
    apply List.map_congr_left
    intro x _
    simp [record]
  · exact matchRecords_nodup path pattern _ 0

/-- The claim C17 at the file `hello\nworld\nlow\n` and the pattern `lo`: the
first and the third line are reported. -/
theorem exact_match_list_witness :
    "lo".toList ≠ [] ∧
    (∃ out, openAndSearch "f".toList "lo".toList (.ok "hello\nworld\nlow\n".toList) =
        some ⟨out, [], ["f".toList]⟩ ∧
      out = (((properLines "hello\nworld\nlow\n".toList).enumFrom 1).filter
        (fun x => decide ("lo".toList <:+: x.2))).map
          (fun x => "f".toList ++ [':'] ++ decimal x.1 ++ [':', ' '] ++ x.2) ∧
      out.Nodup) ∧
    openAndSearch "f".toList "lo".toList (.ok "hello\nworld\nlow\n".toList) =
      some ⟨["f:1: hello".toList, "f:3: low".toList], [], ["f".toList]⟩ :=
  ⟨by decide,
    exact_match_list "f".toList "lo".toList "hello\nworld\nlow\n".toList (by decide),
    by decide⟩

/-- Claim C18: the global visit order.  On a tree of bounded depth whose
directories list proper and distinct filenames, the paths that `search` opens
come in strictly increasing order of their lists of components, compared
element by element (which is the order of `fs::path`).  That is not the order
of the path strings: in the example tree the file `d/a/x.txt` is opened before
`d/a.txt`, although the string `d/a.txt` is less than `d/a/x.txt`. -/
theorem visit_order (fs : FileSystem) (settings : Settings) (pattern : Str)
    (depth : Nat) (path : Str) (level : Nat)
    (hnames : ∀ p, (fs p).is_directory = true →
      (fs p).names.Nodup ∧ ∀ n ∈ (fs p).names, validName n = true)
    (hwalk : walkWithin fs depth path = true) :
    (∃ o, search fs settings pattern depth path level = some o ∧
      o.opened.Pairwise (fun a b => elemsLt (pathNames a) (pathNames b) = true) ∧
      o.opened.Pairwise (fun a b => pathLt a b = true)) ∧
    (search exampleFs3 txtLog "o".toList 3 "d".toList 0).map (fun o => o.opened) =
      some ["d/a/x.txt".toList, "d/a.txt".toList] ∧
    strLt "d/a.txt".toList "d/a/x.txt".toList = true ∧
    elemsLt (pathNames "d/a/x.txt".toList) (pathNames "d/a.txt".toList) = true := by
  refine ⟨?_, by decide, by decide, by decide⟩
  obtain ⟨o, ho⟩ := search_total fs settings pattern depth path level hwalk
  have hs := (search_opened_sorted fs settings pattern hnames depth path level o ho).1
  exact ⟨o, ho, hs.imp (fun h => h.2), hs.imp (fun h => h.1)⟩

/-- The claim C18 on the example tree, walked from `d`. -/
theorem visit_order_witness :
    (∀ p, (exampleFs3 p).is_directory = true →
      (exampleFs3 p).names.Nodup ∧ ∀ n ∈ (exampleFs3 p).names, validName n = true) ∧
    walkWithin exampleFs3 3 "d".toList = true ∧
    (∃ o, search exampleFs3 txtLog "o".toList 3 "d".toList 0 = some o ∧
      o.opened.Pairwise (fun a b => elemsLt (pathNames a) (pathNames b) = true) ∧
      o.opened.Pairwise (fun a b => pathLt a b = true)) :=
  have hnames : ∀ p, (exampleFs3 p).is_directory = true →
      (exampleFs3 p).names.Nodup ∧ ∀ n ∈ (exampleFs3 p).names, validName n = true := by
    intro p _
    unfold exampleFs3
    split_ifs <;> decide
  ⟨hnames, by decide,
    (visit_order exampleFs3 txtLog "o".toList 3 "d".toList 0 hnames (by decide)).1⟩

/-- Claim C19: suffix lines accumulate and never revoke.  The suffix list
parsed from `l1 ++ l2` begins with the suffix list parsed from `l1`, so every
extension that `is_valid_suffix` accepts under `l1` is accepted under
`l1 ++ l2`; and two `suffixes=` lines in section `files` add their tokens
together. -/
theorem suffix_lines_accumulate (l1 l2 : List Str) :
    ∃ m1 m12, parseSettings l1 = some m1 ∧ parseSettings (l1 ++ l2) = some m12 ∧
      m1.m_suffixes <+: m12.m_suffixes ∧
      (∀ s, is_valid_suffix m1 s = true → is_valid_suffix m12 s = true) ∧
      parseSettings ["[files]".toList, "suffixes=txt".toList, "suffixes=log".toList] =
        some ⟨["txt".toList, "log".toList]⟩ := by
  obtain ⟨st1, h1, _⟩ := parseLines_total l1 ⟨[], ⟨[]⟩⟩
  obtain ⟨st2, h2, more, e2⟩ := parseLines_total l2 st1
  have h12 : parseLines ⟨[], ⟨[]⟩⟩ (l1 ++ l2) = some st2 := by
    rw [parseLines_append l1 l2 _ st1 h1, h2]
  refine ⟨st1.settings, st2.settings, by unfold parseSettings; rw [h1]; rfl,
    by unfold parseSettings; rw [h12]; rfl, ⟨more, e2.symm⟩, ?_, by decide⟩
  intro s hs
  rw [is_valid_suffix_eq] at hs ⊢
  rw [decide_eq_true_eq] at hs ⊢
  rw [e2]
  exact List.mem_append_left _ hs

end Grep55
